import Mathlib

/-!
# DNA promoter analysis: propensity scoring and gene ranking

A shallow embedding of `main.cpp` and `Gene.cpp`.

Modelling conventions.

* A `std::string` is a `List Char`; one list element stands for one `char`.
* A `double` is a rational number: the binding-site weights are the exact
  decimals written in the source and additions are exact.  Rounding of the
  floating-point unit is outside this model.
* `int` is a 32-bit two's complement integer and `size_t` a 64-bit unsigned
  integer (the LP64 data model).  A value of one type stored in the other is
  converted modulo the width, see `toInt` and `toSizeT`.
* A loop whose termination depends on its data takes a fuel argument and
  returns `none` when the fuel is used up.
-/

namespace DNA

/-- A `std::string`, as the list of its characters. -/
abbrev Str := List Char

/-! ## Machine integers -/

/-- The constant `std::string::npos`, the largest `size_t`. -/
def npos : Nat := 2 ^ 64 - 1

/-- Conversion of a `size_t` to `int`: the value modulo `2 ^ 32`, read as a
two's complement number. -/
def toInt (n : Nat) : Int :=
  if n % 2 ^ 32 < 2 ^ 31 then ((n % 2 ^ 32 : Nat) : Int)
  else ((n % 2 ^ 32 : Nat) : Int) - 2 ^ 32

/-- Conversion of an `int` to `size_t`: the value modulo `2 ^ 64`. -/
def toSizeT (i : Int) : Nat := (i % 2 ^ 64).toNat

/-! ## `std::string::find` and `std::islower` -/

/-- The search of `std::string::find` proper: `t` is the part of the string
from index `i` on; the answer is the first index at which `m` starts, or
`npos`. -/
def findAux (m : Str) : Str → Nat → Nat
  | [], i => if m.isPrefixOf [] then i else npos
  | c :: t, i => if m.isPrefixOf (c :: t) then i else findAux m t (i + 1)

/-- The call `s.find(m, pos)`: the lowest index `i ≥ pos` at which `m` occurs
in `s`, or `npos` when there is none (in particular when `pos > s.size()`). -/
def find (s m : Str) (pos : Nat) : Nat :=
  if pos ≤ s.length then findAux m (s.drop pos) pos else npos

/-- The test `std::islower(c)` in the default "C" locale. -/
def islower (c : Char) : Bool := 97 ≤ c.toNat && c.toNat ≤ 122

/-! ## The binding-site table -/

/-- One row of the table `bindingSites` of `propensity`. -/
structure BindingSite where
  motif : Str
  score : ℚ

/-- The static table `bindingSites` of `propensity`. -/
def bindingSites : List BindingSite :=
  [ ⟨"aaaccctaa".toList, 2.9895⟩,
    ⟨"ggaagggt".toList, 1.3346⟩,
    ⟨"ggtagggt".toList, 1.3346⟩,
    ⟨"aacgtgt".toList, 1.1033⟩,
    ⟨"acggg".toList, 0.9637⟩,
    ⟨"gcggcaaa".toList, 0.9067⟩,
    ⟨"gttaggtt".toList, 0.8397⟩,
    ⟨"accgac".toList, 0.8076⟩,
    ⟨"gccgac".toList, 0.8076⟩,
    ⟨"gataaga".toList, -3.3202⟩,
    ⟨"gataagg".toList, -3.3202⟩,
    ⟨"gataa".toList, -2.1431⟩,
    ⟨"gataag".toList, -0.7107⟩,
    ⟨"ggata".toList, -3.2140⟩,
    ⟨"acgtggca".toList, -1.1698⟩,
    ⟨"taacgta".toList, -0.9167⟩,
    ⟨"aaaatatct".toList, -0.8441⟩ ]

/-! ## The map of contributions -/

/-- The order of `std::string` keys: lexicographic by character code. -/
def strLess : Str → Str → Bool
  | _, [] => false
  | [], _ :: _ => true
  | a :: s, b :: t => a.toNat < b.toNat || (a == b && strLess s t)

/-- A `std::map<string,double>`, as the list of its entries in key order. -/
abbrev SiteMap := List (Str × ℚ)

/-- The statement `m[k] = v`: overwrite the entry of `k`, or insert one at its
place in key order. -/
def SiteMap.assign : SiteMap → Str → ℚ → SiteMap
  | [], k, v => [(k, v)]
  | (k1, v1) :: rest, k, v =>
    if k = k1 then (k, v) :: rest
    else if strLess k k1 then (k, v) :: (k1, v1) :: rest
    else (k1, v1) :: SiteMap.assign rest k v

/-- The value stored under key `k`, if any. -/
def SiteMap.lookup : SiteMap → Str → Option ℚ
  | [], _ => none
  | (k1, v1) :: rest, k => if k = k1 then some v1 else SiteMap.lookup rest k

/-! ## `propensity` -/

/-- The promoter string `prom` built by `propensity`: the characters of `seq`
that pass `std::islower`, in order. -/
def promoter (seq : Str) : Str := seq.filter islower

/-- The loop `while ((idx = prom.find(motif, idx+1)) != string::npos) score += w`
entered with the given `idx` and `score`.  The result is the final `score`;
`none` stands for a run without a defined result: the `int` addition `idx+1`
overflows, or the fuel is used up. -/
def scan (prom motif : Str) (w : ℚ) : Nat → Int → ℚ → Option ℚ
  | 0, _, _ => none
  | fuel + 1, idx, score =>
    if 2 ^ 31 ≤ idx + 1 then none
    else
      let idx1 := toInt (find prom motif (toSizeT (idx + 1)))
      if toSizeT idx1 ≠ npos then scan prom motif w fuel idx1 (score + w)
      else some score

/-- The body of the loop over the table for one `site`: `score` starts at
`0.0`, `idx` at `-1`.  The fuel is `prom.size() + 1`: every test of the loop
condition but the last follows a match at an index not met before.  A result
`some` is the same for every larger fuel (`scan_fuel_mono`). -/
def siteScore (prom : Str) (site : BindingSite) : Option ℚ :=
  scan prom site.motif site.score (prom.length + 1) (-1) 0

/-- The loop `for (auto& site : bindingSites)` over the remaining rows, with
the running `propensity` and the optional map `sites`. -/
def sitesLoop (prom : Str) :
    List BindingSite → ℚ → Option SiteMap → Option (ℚ × Option SiteMap)
  | [], p, sites => some (p, sites)
  | site :: rest, p, sites =>
    match siteScore prom site with
    | none => none
    | some score =>
      sitesLoop prom rest (p + score) (sites.map fun m => m.assign site.motif score)

/-- The function `propensity(seq, sites)`; `sites = none` is the null pointer.
The result pairs the returned total with the map as left behind. -/
def propensity (seq : Str) (sites : Option SiteMap) : Option (ℚ × Option SiteMap) :=
  sitesLoop (promoter seq) bindingSites 0 sites

/-! ## Occurrences of a motif, as the specification counts them -/

/-- The motif `m` occurs in `p` at start position `i`: `p[i .. i+|m|) = m`. -/
def occursAt (p m : Str) (i : Nat) : Bool := (p.drop i).take m.length == m

/-- The start positions at which `m` occurs in `p`, in increasing order. -/
def occurrences (p m : Str) : List Nat := (List.range p.length).filter (occursAt p m)

/-- The number of start positions at which `m` occurs in `p`. -/
def countOcc (p m : Str) : Nat := (occurrences p m).length

/-- The total of the specification: over the rows of the table, occurrences in
the promoter times weight. -/
def specTotal (seq : Str) : ℚ :=
  (bindingSites.map fun site => (countOcc (promoter seq) site.motif : ℚ) * site.score).sum

/-! ## `Gene` (Gene.h, Gene.cpp) -/

/-- The class `Gene`: identifier, sequence and propensity. -/
structure Gene where
  ID : Str
  sequence : Str
  propensity : ℚ
deriving DecidableEq

namespace Gene

/-- The default constructor `Gene()`. -/
def default : Gene := ⟨[], [], 0⟩

/-- The constructor `Gene(ID, sequence)`. -/
def new (ID sequence : Str) : Gene := ⟨ID, sequence, 0⟩

/-- The accessor `getID()`. -/
def getID (g : Gene) : Str := g.ID

/-- The accessor `getSequence()`. -/
def getSequence (g : Gene) : Str := g.sequence

/-- The accessor `getPropensity()`. -/
def getPropensity (g : Gene) : ℚ := g.propensity

/-- The mutator `setPropensity(p)`: the gene after the call. -/
def setPropensity (g : Gene) (p : ℚ) : Gene := { g with propensity := p }

/-- The copy assignment `g = other`. -/
def assign (_ other : Gene) : Gene := other

/-- The operator `<`. -/
def lt (a b : Gene) : Bool := a.propensity < b.propensity

/-- The operator `>`. -/
def gt (a b : Gene) : Bool := a.propensity > b.propensity

/-- The operator `<=`. -/
def le (a b : Gene) : Bool := a.propensity ≤ b.propensity

/-- The operator `>=`. -/
def ge (a b : Gene) : Bool := a.propensity ≥ b.propensity

/-- The operator `==`. -/
def eq (a b : Gene) : Bool := a.propensity == b.propensity

/-- The operator `!=`. -/
def ne (a b : Gene) : Bool := a.propensity != b.propensity

end Gene

/-! ## Stream operators of `Gene`

An input stream is the list of characters not yet read; an extraction returns
`none` when it sets the stream's fail state.  The text of a `double` is the
business of the stream library: `put` (insertion) and `get` (extraction, with
the rest of the input) are parameters. -/

/-- The delimiter of `std::quoted`, the double quote. -/
def delim : Char := Char.ofNat 34

/-- The escape character of `std::quoted`, the backslash. -/
def escape : Char := Char.ofNat 92

/-- The test `std::isspace(c)` in the "C" locale. -/
def isspace (c : Char) : Bool := c.toNat == 32 || (9 ≤ c.toNat && c.toNat ≤ 13)

/-- Insertion of `std::quoted(s)`: the delimiter, `s` with every delimiter and
escape character preceded by the escape character, the delimiter. -/
def putQuoted (s : Str) : Str :=
  delim :: (s.flatMap fun c => if c = delim ∨ c = escape then [escape, c] else [c]) ++ [delim]

/-- Leading whitespace is dropped before a formatted extraction. -/
def skipws : Str → Str
  | [] => []
  | c :: t => if isspace c then skipws t else c :: t

/-- Extraction `is >> c` of one `char`. -/
def getChar (input : Str) : Option (Char × Str) :=
  match skipws input with
  | [] => none
  | c :: t => some (c, t)

/-- Extraction `is >> s` of a `std::string`: the characters up to the next
whitespace; it fails when there is none. -/
def getWord (input : Str) : Option (Str × Str) :=
  match (skipws input).span fun c => !isspace c with
  | ([], _) => none
  | (w, rest) => some (w, rest)

/-- The loop of the extraction of `std::quoted` after the opening delimiter,
with whitespace skipping off: `acc` is the string read so far. -/
def getQuotedLoop : Str → Str → Option (Str × Str)
  | [], _ => none
  | c :: t, acc =>
    if c = escape then
      match t with
      | [] => none
      | d :: t1 => getQuotedLoop t1 (acc ++ [d])
    else if c = delim then some (acc, t)
    else getQuotedLoop t (acc ++ [c])

/-- Extraction of `std::quoted(s)`: a text that does not open with the
delimiter is read as a plain word. -/
def getQuoted (input : Str) : Option (Str × Str) :=
  match skipws input with
  | [] => none
  | c :: t => if c = delim then getQuotedLoop t [] else getWord (c :: t)

/-- The operator `os << gene`. -/
def insertGene (put : ℚ → Str) (gene : Gene) : Str :=
  putQuoted gene.ID ++ [','] ++ putQuoted gene.sequence ++ [','] ++ put gene.propensity

/-- The operator `is >> gene` when every extraction succeeds: the number is
read into `gene.propensity`, then `gene` is replaced by `Gene(ID, sequence)` and
its propensity set to its own propensity.  The result is the new value of
`gene` and the rest of the input. -/
def extractGene (get : Str → Option (ℚ × Str)) (input : Str) (gene : Gene) :
    Option (Gene × Str) :=
  match getQuoted input with
  | none => none
  | some (ID, r1) =>
    match getChar r1 with
    | none => none
    | some (_, r2) =>
      match getQuoted r2 with
      | none => none
      | some (sequence, r3) =>
        match getChar r3 with
        | none => none
        | some (_, r4) =>
          match get r4 with
          | none => none
          | some (p, r5) =>
            let gene1 := { gene with propensity := p }
            let gene2 := gene1.assign (Gene.new ID sequence)
            some (gene2.setPropensity gene2.getPropensity, r5)

/-! ## `bubbleSort` -/

/-- The `for` loop of `bubbleSort` about to test `i < vec.size()`, with `steps`
the number of indices from `i` up to the size: an element that `compare` puts
before its left neighbour is swapped with it, and `sorted` is cleared. -/
def forLoop {T : Type} (compare : T → T → Bool) : Nat → Nat → List T → Bool → List T × Bool
  | 0, _, vec, sorted => (vec, sorted)
  | steps + 1, i, vec, sorted =>
    match vec.get? i, vec.get? (i - 1) with
    | some cur, some prev =>
      if compare cur prev then
        forLoop compare steps (i + 1) ((vec.set i prev).set (i - 1) cur) false
      else forLoop compare steps (i + 1) vec sorted
    | _, _ => (vec, sorted)

/-- The body of the `do` loop: `sorted = true`, then the `for` loop from
`i = 1`, which does nothing on an empty vector. -/
def doBody {T : Type} (compare : T → T → Bool) (vec : List T) : List T × Bool :=
  forLoop compare (vec.length - 1) 1 vec true

/-- The function `bubbleSort(vec, compare)`: the `do` loop runs until a pass
leaves `sorted` true; `none` when the fuel, a bound on the passes, runs out. -/
def bubbleSort {T : Type} (compare : T → T → Bool) : Nat → List T → Option (List T)
  | 0, _ => none
  | fuel + 1, vec =>
    if (doBody compare vec).2 then some (doBody compare vec).1
    else bubbleSort compare fuel (doBody compare vec).1

/-! ## `main` -/

/-- The comparator `main` passes to `bubbleSort`: `*a > *b`. -/
def mainCompare (a b : Gene) : Bool := a.gt b

/-- The scoring loop of `main`: every gene gets `propensity(sequence, nullptr)`. -/
def scoreGenes : List Gene → Option (List Gene)
  | [] => some []
  | g :: rest =>
    match propensity g.getSequence none, scoreGenes rest with
    | some r, some out => some (g.setPropensity r.1 :: out)
    | _, _ => none

/-- The loop `for (i = 0; i < top; i++) os << *genes[i]` with `i` as given and
`remaining = top - i` steps to go: the records written, in order.  `none` would
be an index out of range. -/
def exportLoop (genes : List Gene) : Nat → Nat → Option (List Gene)
  | 0, _ => some []
  | remaining + 1, i =>
    match genes.get? i, exportLoop genes remaining (i + 1) with
    | some g, some out => some (g :: out)
    | _, _ => none

/-- The export of `main` with `requested` in the place of 20:
`top = min(requested, genes.size())`, then the loop from `i = 0`. -/
def exportTop (requested : Nat) (genes : List Gene) : Option (List Gene) :=
  exportLoop genes (min requested genes.length) 0

/-- The call `propensity(gene.getSequence(), &sites)` of `displayGene`, on a
fresh map. -/
def displayGene (gene : Gene) : Option (ℚ × Option SiteMap) :=
  propensity gene.getSequence (some [])

/-! ## Auxiliary definitions of the proofs -/

/-- The number of suffixes of `t` that start with `m`. -/
def countAux (m : Str) : Str → Nat
  | [] => if m.isPrefixOf [] then 1 else 0
  | c :: t => (if m.isPrefixOf (c :: t) then 1 else 0) + countAux m t

/-- The map `propensity` leaves behind when every row holds occurrences times
weight, starting from the map `m`. -/
def contributions (prom : Str) (m : SiteMap) : SiteMap :=
  bindingSites.foldl
    (fun acc site => acc.assign site.motif ((countOcc prom site.motif : ℚ) * site.score)) m

/-- A long promoter: `n` letters `c`, then `tail`. -/
def longProm (n : Nat) (tail : Str) : Str := List.replicate n 'c' ++ tail

/-- One pass of `bubbleSort` told on lists: `prev` is the element left of the
current index as the earlier steps left it, the list holds the elements from
the current index on.  The result is the vector from `prev` on and the flag
`sorted` (see `doBody_cons`). -/
def bubblePass {T : Type} (compare : T → T → Bool) : T → List T → List T × Bool
  | prev, [] => ([prev], true)
  | prev, cur :: rest =>
    if compare cur prev then
      (cur :: (bubblePass compare prev rest).1, false)
    else
      (prev :: (bubblePass compare cur rest).1, (bubblePass compare cur rest).2)

/-- The number of pairs of `l` that `compare` wants in the other order. -/
def inversions {T : Type} (compare : T → T → Bool) : List T → Nat
  | [] => 0
  | x :: t => t.countP (fun y => compare y x) + inversions compare t

/-- The row `site` opens with a letter other than `c`. -/
def headNotC (site : BindingSite) : Bool :=
  match site.motif with
  | [] => false
  | a :: _ => a != 'c'

/-- The score a scan of `longProm n tail` gives `site` when its first match, if
any, is at index `n = 2 ^ 31`: that one match counts, later ones do not. -/
def longScore (n : Nat) (tail : Str) (site : BindingSite) : ℚ :=
  if findAux site.motif tail n = n then site.score else 0

/-- The test `std::ispunct(c)` in the "C" locale. -/
def ispunct (c : Char) : Bool :=
  (33 ≤ c.toNat && c.toNat ≤ 47) || (58 ≤ c.toNat && c.toNat ≤ 64) ||
  (91 ≤ c.toNat && c.toNat ≤ 96) || (123 ≤ c.toNat && c.toNat ≤ 126)

/-! ## Definitions for the trace of the scan loop and for stability -/

/-- The values the loop of `scan` stores in `idx`, in order, when entered with
the given `idx`; the last one is the value on which the loop exits.  `none` as
for `scan`. -/
def scanTrace (prom motif : Str) : Nat → Int → Option (List Int)
  | 0, _ => none
  | fuel + 1, idx =>
    if 2 ^ 31 ≤ idx + 1 then none
    else
      let idx1 := toInt (find prom motif (toSizeT (idx + 1)))
      if toSizeT idx1 ≠ npos then (scanTrace prom motif fuel idx1).map fun tr => idx1 :: tr
      else some [idx1]

/-- The start positions of `m` in `t`, counted from `i` for the head of `t`. -/
def occFrom (m : Str) : Str → Nat → List Nat
  | [], _ => []
  | c :: t, i =>
    if m.isPrefixOf (c :: t) then i :: occFrom m t (i + 1) else occFrom m t (i + 1)

/-- The stable sort of the specification: by propensity, descending, records of
equal propensity in their order of arrival. -/
def stableSortDescending (genes : List Gene) : List Gene :=
  genes.mergeSort fun a b => decide (a.propensity ≥ b.propensity)

/-! ## Lemmas on the scan loop -/

theorem isPrefixOf_nil_of_ne {m : Str} (hm : m ≠ []) : m.isPrefixOf [] = false := by
  cases m with
  | nil => exact absurd rfl hm
  | cons a m => rfl

theorem countAux_nil {m : Str} (hm : m ≠ []) : countAux m [] = 0 := by
  simp [countAux, isPrefixOf_nil_of_ne hm]

theorem findAux_spec {m : Str} (hm : m ≠ []) (t : Str) (p : Nat) :
    (findAux m t p = npos ∧ countAux m t = 0) ∨
    (∃ k, k < t.length ∧ findAux m t p = p + k ∧ m.isPrefixOf (t.drop k) = true ∧
      (∀ j, j < k → m.isPrefixOf (t.drop j) = false) ∧
      countAux m t = 1 + countAux m (t.drop (k + 1))) := by
  induction t generalizing p with
  | nil =>
    left
    simp [findAux, countAux, isPrefixOf_nil_of_ne hm]
  | cons c t ih =>
    by_cases h : m.isPrefixOf (c :: t) = true
    · right
      refine ⟨0, by simp, ?_, by simpa using h, by simp, ?_⟩
      · simp [findAux, h]
      · simp [countAux, h]
    · have hf : m.isPrefixOf (c :: t) = false := Bool.eq_false_iff.mpr h
      rcases ih (p + 1) with ⟨h1, h2⟩ | ⟨k, hk, h1, h2, h3, h4⟩
      · left
        simp [findAux, countAux, hf, h1, h2]
      · right
        refine ⟨k + 1, by simpa using hk, ?_, by simpa using h2, ?_, ?_⟩
        · simp [findAux, hf, h1]; omega
        · intro j hj
          cases j with
          | zero => exact hf
          | succ j => simpa using h3 j (by omega)
        · simp [countAux, hf, h4]

theorem toSizeT_natCast (n : Nat) (h : n < 2 ^ 64) : toSizeT (n : Int) = n := by
  unfold toSizeT
  have : ((n : Int) % 2 ^ 64) = n := Int.emod_eq_of_lt (by omega) (by omega)
  rw [this]; simp

theorem toInt_of_lt (n : Nat) (h : n < 2 ^ 31) : toInt n = n := by
  unfold toInt
  have h1 : n % 2 ^ 32 = n := Nat.mod_eq_of_lt (by omega)
  rw [h1, if_pos h]

theorem toInt_npos : toInt npos = -1 := by decide

theorem toSizeT_neg_one : toSizeT (-1) = npos := by decide

/-- A result of `scan` does not depend on the fuel: more fuel gives the same. -/
theorem scan_fuel_mono (prom motif : Str) (w : ℚ) (extra : Nat) :
    ∀ (fuel : Nat) (idx : Int) (score r : ℚ), scan prom motif w fuel idx score = some r →
      scan prom motif w (fuel + extra) idx score = some r := by
  intro fuel
  induction fuel with
  | zero => intro idx score r h; simp [scan] at h
  | succ fuel ih =>
    intro idx score r h
    rw [show fuel + 1 + extra = (fuel + extra) + 1 by omega]
    rw [scan] at h ⊢
    by_cases h1 : (2 : Int) ^ 31 ≤ idx + 1
    · rw [if_pos h1] at h; exact absurd h (by simp)
    · rw [if_neg h1] at h ⊢
      by_cases h2 : toSizeT (toInt (find prom motif (toSizeT (idx + 1)))) ≠ npos
      · rw [if_pos h2] at h ⊢
        exact ih _ _ _ h
      · rw [if_neg h2] at h ⊢
        exact h

/-- The loop invariant of `scan`: entered with `idx = p - 1` on a promoter
shorter than `2 ^ 31`, the loop ends and adds `w` once for every occurrence
that starts at `p` or later. -/
theorem scan_from {m : Str} (hm : m ≠ []) (prom : Str) (w : ℚ)
    (hlen : prom.length < 2 ^ 31) :
    ∀ (fuel p : Nat) (score : ℚ), p ≤ prom.length → prom.length - p < fuel →
      scan prom m w fuel ((p : Int) - 1) score
        = some (score + (countAux m (prom.drop p) : ℚ) * w) := by
  intro fuel
  induction fuel with
  | zero => intro p score _ h; omega
  | succ fuel ih =>
    intro p score hp hfuel
    have h1 : ¬ ((2 : Int) ^ 31 ≤ (p : Int) - 1 + 1) := by
      have : (p : Int) < 2 ^ 31 := by exact_mod_cast (by omega : p < 2 ^ 31)
      omega
    have h2 : toSizeT ((p : Int) - 1 + 1) = p := by
      have : (p : Int) - 1 + 1 = (p : Int) := by ring
      rw [this]; exact toSizeT_natCast p (by omega)
    rw [scan, if_neg h1]
    simp only [h2, find, if_pos hp]
    rcases findAux_spec hm (prom.drop p) p with ⟨e1, e2⟩ | ⟨k, hk, e1, _, _, e4⟩
    · simp [e1, e2, toInt_npos, toSizeT_neg_one]
    · have hk2 : p + k < prom.length := by
        simp only [List.length_drop] at hk; omega
      have e5 : toInt (p + k) = ((p + k : Nat) : Int) := toInt_of_lt _ (by omega)
      have e6 : toSizeT ((p + k : Nat) : Int) = p + k := toSizeT_natCast _ (by omega)
      have e7 : p + k ≠ npos := by unfold npos; omega
      rw [e1, e5, e6]
      simp only [ne_eq, e7, not_false_eq_true, if_true]
      have := ih (p + k + 1) (score + w) (by omega) (by omega)
      have hc : (((p + k + 1 : Nat) : Int) - 1) = ((p + k : Nat) : Int) := by push_cast; ring
      rw [hc] at this
      rw [this, e4, List.drop_drop]
      have hd : p + (k + 1) = p + k + 1 := by omega
      rw [hd]
      push_cast
      congr 1
      ring

theorem isPrefixOf_eq_occursAt_zero (m t : Str) : m.isPrefixOf t = occursAt t m 0 := by
  rw [Bool.eq_iff_iff]
  simp only [occursAt, List.drop_zero, beq_iff_eq, List.isPrefixOf_iff_prefix]
  rw [List.prefix_iff_eq_take]
  exact eq_comm

theorem occursAt_cons_succ (c : Char) (t m : Str) (i : Nat) :
    occursAt (c :: t) m (i + 1) = occursAt t m i := by
  simp [occursAt]

theorem occursAt_length {m : Str} (hm : m ≠ []) (t : Str) : occursAt t m t.length = false := by
  cases m with
  | nil => exact absurd rfl hm
  | cons a m => simp [occursAt]

theorem countOcc_cons (c : Char) (t m : Str) :
    countOcc (c :: t) m = (if m.isPrefixOf (c :: t) then 1 else 0) + countOcc t m := by
  unfold countOcc occurrences
  rw [List.length_cons, List.range_succ_eq_map, List.filter_cons, List.filter_map,
    isPrefixOf_eq_occursAt_zero]
  have hfun : (occursAt (c :: t) m ∘ Nat.succ) = occursAt t m := by
    funext i
    exact occursAt_cons_succ c t m i
  rw [hfun]
  by_cases h : occursAt (c :: t) m 0 = true
  · simp [h]; omega
  · simp [h]

theorem countAux_eq_countOcc {m : Str} (hm : m ≠ []) (t : Str) :
    countAux m t = countOcc t m := by
  induction t with
  | nil => rw [countAux_nil hm]; rfl
  | cons c t ih => rw [countOcc_cons, countAux, ih]

/-- On a promoter shorter than `2 ^ 31` the scan loop, entered as `propensity`
enters it, ends with occurrences times weight. -/
theorem scan_eq_count {m : Str} (hm : m ≠ []) (prom : Str) (w : ℚ)
    (hlen : prom.length < 2 ^ 31) (fuel : Nat) (hfuel : prom.length < fuel) :
    scan prom m w fuel (-1) 0 = some ((countOcc prom m : ℚ) * w) := by
  have h := scan_from hm prom w hlen fuel 0 0 (Nat.zero_le _) (by simpa using hfuel)
  simpa [countAux_eq_countOcc hm] using h

theorem sitesLoop_eq (prom : Str) (f : BindingSite → ℚ) :
    ∀ (tbl : List BindingSite) (p : ℚ) (sites : Option SiteMap),
      (∀ site ∈ tbl, siteScore prom site = some (f site)) →
      sitesLoop prom tbl p sites
        = some (p + (tbl.map f).sum,
            sites.map fun m => tbl.foldl (fun acc site => acc.assign site.motif (f site)) m) := by
  intro tbl
  induction tbl with
  | nil => intro p sites _; cases sites <;> simp [sitesLoop]
  | cons site rest ih =>
    intro p sites h
    have h1 : siteScore prom site = some (f site) := h site (List.mem_cons_self _ _)
    have h2 : ∀ s ∈ rest, siteScore prom s = some (f s) :=
      fun s hs => h s (List.mem_cons_of_mem _ hs)
    rw [sitesLoop, h1]
    simp only
    rw [ih _ _ h2]
    cases sites <;> simp [add_assoc]

theorem bindingSites_motif_ne_nil : ∀ site ∈ bindingSites, site.motif ≠ [] := by
  decide

theorem siteScore_eq_count (prom : Str) (hlen : prom.length < 2 ^ 31) :
    ∀ site ∈ bindingSites,
      siteScore prom site = some ((countOcc prom site.motif : ℚ) * site.score) :=
  fun site hs =>
    scan_eq_count (bindingSites_motif_ne_nil site hs) prom site.score hlen _ (Nat.lt_succ_self _)

theorem propensity_of_short (seq : Str) (hlen : (promoter seq).length < 2 ^ 31)
    (sites : Option SiteMap) :
    propensity seq sites
      = some (specTotal seq, sites.map (contributions (promoter seq))) := by
  unfold propensity
  rw [sitesLoop_eq (promoter seq) _ bindingSites 0 sites (siteScore_eq_count _ hlen)]
  simp only [specTotal, zero_add]
  rfl

/-! ## Promoters of `2 ^ 31` characters and more -/

theorem findAux_replicate_append (a c : Char) (hac : a ≠ c) (m r : Str) :
    ∀ (n p : Nat), findAux (a :: m) (List.replicate n c ++ r) p = findAux (a :: m) r (p + n) := by
  intro n
  induction n with
  | zero => intro p; simp
  | succ n ih =>
    intro p
    rw [List.replicate_succ, List.cons_append, findAux]
    have : (a :: m).isPrefixOf (c :: (List.replicate n c ++ r)) = false := by
      simp [List.isPrefixOf, hac]
    rw [this, ih]
    simp only [Bool.false_eq_true, if_false]
    congr 1
    omega

theorem countAux_replicate_append (a c : Char) (hac : a ≠ c) (m r : Str) :
    ∀ (n : Nat), countAux (a :: m) (List.replicate n c ++ r) = countAux (a :: m) r := by
  intro n
  induction n with
  | zero => simp
  | succ n ih =>
    rw [List.replicate_succ, List.cons_append, countAux]
    have : (a :: m).isPrefixOf (c :: (List.replicate n c ++ r)) = false := by
      simp [List.isPrefixOf, hac]
    rw [this, ih]
    simp

theorem longProm_length (n : Nat) (tail : Str) : (longProm n tail).length = n + tail.length := by
  simp [longProm]

theorem find_longProm_zero (a : Char) (ha : a ≠ 'c') (m tail : Str) (n : Nat) :
    find (longProm n tail) (a :: m) 0 = findAux (a :: m) tail n := by
  unfold find longProm
  rw [if_pos (Nat.zero_le _), List.drop_zero, findAux_replicate_append a 'c' ha, Nat.zero_add]

theorem find_longProm_far (m tail : Str) (n pos : Nat) (h : n + tail.length < pos) :
    find (longProm n tail) m pos = npos := by
  unfold find
  rw [longProm_length, if_neg (by omega)]

/-- A scan whose first match is at index `2 ^ 31` ends after that one match. -/
theorem scan_longProm_once (a : Char) (ha : a ≠ 'c') (m tail : Str) (w : ℚ) (n fuel : Nat)
    (hn : n = 2 ^ 31)
    (hfind : findAux (a :: m) tail n = n) (htail : tail.length < 2 ^ 31) :
    scan (longProm n tail) (a :: m) w (fuel + 2) (-1) 0 = some w := by
  have e1 : toSizeT (-1 + 1) = 0 := by decide
  have e2 : toInt (2 ^ 31) = -(2 ^ 31) := by decide
  have e3 : toSizeT (-(2 ^ 31)) ≠ npos := by decide
  have e4 : toSizeT (-(2 ^ 31) + 1) = 2 ^ 64 - 2 ^ 31 + 1 := by decide
  have e5 : ¬ ((2 : Int) ^ 31 ≤ -1 + 1) := by decide
  have e6 : ¬ ((2 : Int) ^ 31 ≤ -(2 ^ 31) + 1) := by decide
  have e7 : toSizeT (toInt npos) = npos := by decide
  rw [scan, if_neg e5]
  simp only [e1, find_longProm_zero a ha, hfind]
  rw [hn, e2, if_pos e3, scan, if_neg e6]
  simp only [e4]
  rw [find_longProm_far _ _ _ _ (by omega)]
  simp [e7]

/-- No match at all: the scan ends at once with score `0`. -/
theorem scan_longProm_none (a : Char) (ha : a ≠ 'c') (m tail : Str) (w : ℚ) (n fuel : Nat)
    (hfind : findAux (a :: m) tail n = npos) :
    scan (longProm n tail) (a :: m) w (fuel + 1) (-1) 0 = some 0 := by
  have e1 : toSizeT (-1 + 1) = 0 := by decide
  have e5 : ¬ ((2 : Int) ^ 31 ≤ -1 + 1) := by decide
  have e7 : toSizeT (toInt npos) = npos := by decide
  rw [scan, if_neg e5]
  simp only [e1, find_longProm_zero a ha, hfind]
  simp [e7]

theorem promoter_longProm (n : Nat) (tail : Str) :
    promoter (longProm n tail) = longProm n (promoter tail) := by
  have h : ∀ k : Nat, (List.replicate k 'c').filter islower = List.replicate k 'c' := by
    intro k
    induction k with
    | zero => rfl
    | succ k ih =>
      rw [List.replicate_succ, List.filter_cons_of_pos (by decide), ih]
  unfold promoter longProm
  rw [List.filter_append, h]

theorem countOcc_longProm (n : Nat) (tail : Str) (site : BindingSite)
    (hhead : headNotC site = true) :
    countOcc (longProm n tail) site.motif = countOcc tail site.motif := by
  obtain ⟨motif, score⟩ := site
  cases motif with
  | nil => simp [headNotC] at hhead
  | cons a m =>
    have ha : a ≠ 'c' := by simpa [headNotC] using hhead
    have hne : a :: m ≠ [] := List.cons_ne_nil a m
    show countOcc (longProm n tail) (a :: m) = countOcc tail (a :: m)
    rw [← countAux_eq_countOcc hne, ← countAux_eq_countOcc hne]
    exact countAux_replicate_append a 'c' ha m tail n

theorem siteScore_longProm (n : Nat) (hn : n = 2 ^ 31) (tail : Str)
    (htail : tail.length < 2 ^ 31) (site : BindingSite) (hhead : headNotC site = true)
    (hfind : findAux site.motif tail n = n ∨ findAux site.motif tail n = npos) :
    siteScore (longProm n tail) site = some (longScore n tail site) := by
  obtain ⟨motif, score⟩ := site
  cases motif with
  | nil => simp [headNotC] at hhead
  | cons a m =>
    have ha : a ≠ 'c' := by simpa [headNotC] using hhead
    simp only [siteScore, longScore, longProm_length] at hfind ⊢
    rcases hfind with h | h
    · rw [if_pos h, show n + tail.length + 1 = (n + tail.length - 1) + 2 by omega]
      exact scan_longProm_once a ha m tail score n _ hn h htail
    · have hne : ¬ (findAux (a :: m) tail n = n) := by
        rw [h, hn]; decide
      rw [if_neg hne]
      exact scan_longProm_none a ha m tail score n _ h

/-- The value of `propensity` on a sequence of `2 ^ 31` letters `c` followed by
a lowercase `tail`, in which no row matches before index `2 ^ 31`. -/
theorem propensity_longProm (n : Nat) (hn : n = 2 ^ 31) (tail : Str)
    (hlow : promoter tail = tail) (htail : tail.length < 2 ^ 31)
    (hrows : ∀ site ∈ bindingSites, headNotC site = true ∧
      (findAux site.motif tail n = n ∨ findAux site.motif tail n = npos))
    (sites : Option SiteMap) :
    propensity (longProm n tail) sites
      = some ((bindingSites.map (longScore n tail)).sum,
          sites.map fun m =>
            bindingSites.foldl (fun acc site => acc.assign site.motif (longScore n tail site)) m) := by
  unfold propensity
  rw [promoter_longProm, hlow,
    sitesLoop_eq (longProm n tail) (longScore n tail) bindingSites 0 sites
      (fun site hs => siteScore_longProm n hn tail htail site (hrows site hs).1 (hrows site hs).2)]
  simp only [zero_add]

theorem specTotal_longProm (n : Nat) (tail : Str) (hlow : promoter tail = tail)
    (hrows : ∀ site ∈ bindingSites, headNotC site = true) :
    specTotal (longProm n tail) = specTotal tail := by
  unfold specTotal
  rw [promoter_longProm, hlow]
  congr 1
  apply List.map_congr_left
  intro site hs
  rw [countOcc_longProm n tail site (hrows site hs)]

/-! ## Lemmas on the character classes -/

theorem islower_eq_isLower (c : Char) : islower c = c.isLower := by
  simp only [islower, Char.isLower, Char.toNat, ge_iff_le, UInt32.le_def, Bool.and_eq_true,
    decide_eq_true_eq]
  rfl

theorem isUpper_iff (c : Char) : c.isUpper = true ↔ 65 ≤ c.toNat ∧ c.toNat ≤ 90 := by
  simp only [Char.isUpper, Char.toNat, ge_iff_le, UInt32.le_def, Bool.and_eq_true,
    decide_eq_true_eq]
  rfl

theorem isDigit_iff (c : Char) : c.isDigit = true ↔ 48 ≤ c.toNat ∧ c.toNat ≤ 57 := by
  simp only [Char.isDigit, Char.toNat, ge_iff_le, UInt32.le_def, Bool.and_eq_true,
    decide_eq_true_eq]
  rfl

theorem islower_iff (c : Char) : islower c = true ↔ 97 ≤ c.toNat ∧ c.toNat ≤ 122 := by
  simp [islower]

theorem ispunct_iff (c : Char) : ispunct c = true ↔
    (33 ≤ c.toNat ∧ c.toNat ≤ 47) ∨ (58 ≤ c.toNat ∧ c.toNat ≤ 64) ∨
    (91 ≤ c.toNat ∧ c.toNat ≤ 96) ∨ (123 ≤ c.toNat ∧ c.toNat ≤ 126) := by
  simp [ispunct, or_assoc]

/-! ## Lemmas on `bubbleSort` -/

theorem forLoop_eq_bubblePass {T : Type} (compare : T → T → Bool) (rest : List T) :
    ∀ (pre : List T) (prev : T) (sorted : Bool),
      forLoop compare rest.length (pre.length + 1) (pre ++ prev :: rest) sorted
        = (pre ++ (bubblePass compare prev rest).1,
            sorted && (bubblePass compare prev rest).2) := by
  induction rest with
  | nil => intro pre prev sorted; simp [forLoop, bubblePass]
  | cons cur rest ih =>
    intro pre prev sorted
    have h1 : (pre ++ prev :: cur :: rest).get? (pre.length + 1) = some cur := by
      rw [List.get?_eq_getElem?, List.getElem?_append_right (by omega)]
      simp
    have h2 : (pre ++ prev :: cur :: rest).get? (pre.length + 1 - 1) = some prev := by
      rw [List.get?_eq_getElem?, List.getElem?_append_right (by omega)]
      simp
    have h3 : ((pre ++ prev :: cur :: rest).set (pre.length + 1) prev).set (pre.length + 1 - 1) cur
        = (pre ++ [cur]) ++ prev :: rest := by
      simp [List.set_append_right]
    have h4 : pre ++ prev :: cur :: rest = (pre ++ [prev]) ++ cur :: rest := by simp
    have h5 : pre.length + 1 + 1 = (pre ++ [cur]).length + 1 := by simp
    have h6 : pre.length + 1 + 1 = (pre ++ [prev]).length + 1 := by simp
    rw [List.length_cons, forLoop, h1, h2]
    simp only
    by_cases hc : compare cur prev = true
    · rw [if_pos hc, h3, h5, ih]
      simp [bubblePass, hc]
    · rw [if_neg hc, h4, h6, ih]
      simp [bubblePass, hc]

theorem doBody_cons {T : Type} (compare : T → T → Bool) (first : T) (rest : List T) :
    doBody compare (first :: rest) = bubblePass compare first rest := by
  have h := forLoop_eq_bubblePass compare rest [] first true
  simpa [doBody] using h

theorem doBody_nil {T : Type} (compare : T → T → Bool) :
    doBody compare ([] : List T) = ([], true) := rfl

theorem bubblePass_perm {T : Type} (compare : T → T → Bool) (rest : List T) :
    ∀ prev : T, List.Perm (bubblePass compare prev rest).1 (prev :: rest) := by
  induction rest with
  | nil => intro prev; simp [bubblePass]
  | cons cur rest ih =>
    intro prev
    by_cases h : compare cur prev = true
    · simp only [bubblePass, h, if_true]
      exact ((ih prev).cons cur).trans (List.Perm.swap prev cur rest)
    · simp only [bubblePass, h]
      exact (ih cur).cons prev

theorem bubblePass_sorted {T : Type} (compare : T → T → Bool) (rest : List T) :
    ∀ prev : T, (bubblePass compare prev rest).2 = true →
      (bubblePass compare prev rest).1 = prev :: rest ∧
      List.Chain (fun x y => compare y x = false) prev rest := by
  induction rest with
  | nil => intro prev _; simp [bubblePass]
  | cons cur rest ih =>
    intro prev h
    by_cases hc : compare cur prev = true
    · simp [bubblePass, hc] at h
    · simp only [bubblePass, hc] at h ⊢
      obtain ⟨h1, h2⟩ := ih cur h
      refine ⟨by simp [h1], List.Chain.cons (by simpa using hc) h2⟩

theorem bubblePass_inversions {T : Type} (compare : T → T → Bool)
    (hasym : ∀ a b, compare a b = true → compare b a = false) (rest : List T) :
    ∀ prev : T,
      inversions compare (bubblePass compare prev rest).1
          + (if (bubblePass compare prev rest).2 then 0 else 1)
        ≤ inversions compare (prev :: rest) := by
  induction rest with
  | nil => intro prev; simp [bubblePass, inversions]
  | cons cur rest ih =>
    intro prev
    by_cases hc : compare cur prev = true
    · have hp := (bubblePass_perm compare rest prev).countP_eq (fun y => compare y cur)
      have ih1 := ih prev
      have h0 : compare prev cur = false := hasym _ _ hc
      simp only [bubblePass, hc, if_true, inversions, hp, List.countP_cons, h0] at ih1 ⊢
      split at ih1 <;> simp at ih1 ⊢ <;> omega
    · have hp := (bubblePass_perm compare rest cur).countP_eq (fun y => compare y prev)
      have ih1 := ih cur
      have hf : compare cur prev = false := Bool.eq_false_iff.mpr hc
      simp only [bubblePass, hf, Bool.false_eq_true, if_false, inversions, hp] at ih1 ⊢
      omega

theorem inversions_le {T : Type} (compare : T → T → Bool) (l : List T) :
    inversions compare l ≤ l.length * l.length := by
  induction l with
  | nil => simp [inversions]
  | cons x t ih =>
    have h1 : t.countP (fun y => compare y x) ≤ t.length := List.countP_le_length _
    simp only [inversions, List.length_cons]
    nlinarith

theorem doBody_perm {T : Type} (compare : T → T → Bool) (vec : List T) :
    List.Perm (doBody compare vec).1 vec := by
  cases vec with
  | nil => simp [doBody_nil]
  | cons x t => rw [doBody_cons]; exact bubblePass_perm compare t x

theorem doBody_sorted {T : Type} (compare : T → T → Bool) (vec : List T)
    (h : (doBody compare vec).2 = true) :
    (doBody compare vec).1 = vec ∧ List.Chain' (fun x y => compare y x = false) vec := by
  cases vec with
  | nil => simp [doBody_nil]
  | cons x t =>
    rw [doBody_cons] at h ⊢
    exact bubblePass_sorted compare t x h

theorem doBody_inversions {T : Type} (compare : T → T → Bool)
    (hasym : ∀ a b, compare a b = true → compare b a = false) (vec : List T) :
    inversions compare (doBody compare vec).1 + (if (doBody compare vec).2 then 0 else 1)
      ≤ inversions compare vec := by
  cases vec with
  | nil => simp [doBody_nil, inversions]
  | cons x t => rw [doBody_cons]; exact bubblePass_inversions compare hasym t x

/-- With an asymmetric comparator `bubbleSort` ends within `inversions + 1`
passes, on a permutation of its input no adjacent pair of which the comparator
would swap. -/
theorem bubbleSort_terminates {T : Type} (compare : T → T → Bool)
    (hasym : ∀ a b, compare a b = true → compare b a = false) :
    ∀ (fuel : Nat) (vec : List T), inversions compare vec < fuel →
      ∃ r, bubbleSort compare fuel vec = some r ∧ List.Perm r vec ∧
        List.Chain' (fun x y => compare y x = false) r := by
  intro fuel
  induction fuel with
  | zero => intro vec h; omega
  | succ fuel ih =>
    intro vec h
    have hinv := doBody_inversions compare hasym vec
    by_cases hs : (doBody compare vec).2 = true
    · obtain ⟨h1, h2⟩ := doBody_sorted compare vec hs
      exact ⟨vec, by simp [bubbleSort, hs, h1], List.Perm.refl _, h2⟩
    · simp only [hs] at hinv
      obtain ⟨r, hr1, hr2, hr3⟩ := ih (doBody compare vec).1 (by simp at hinv; omega)
      exact ⟨r, by simp [bubbleSort, hs, hr1], hr2.trans (doBody_perm compare vec), hr3⟩

theorem bubbleSort_fuel_mono {T : Type} (compare : T → T → Bool) (k : Nat) :
    ∀ (fuel : Nat) (vec r : List T), bubbleSort compare fuel vec = some r →
      bubbleSort compare (fuel + k) vec = some r := by
  intro fuel
  induction fuel with
  | zero => intro vec r h; simp [bubbleSort] at h
  | succ fuel ih =>
    intro vec r h
    rw [show fuel + 1 + k = (fuel + k) + 1 by omega]
    by_cases hs : (doBody compare vec).2 = true
    · simpa [bubbleSort, hs] using h
    · simp only [bubbleSort, hs] at h ⊢
      exact ih _ _ h

theorem mainCompare_asymm : ∀ a b : Gene, mainCompare a b = true → mainCompare b a = false := by
  intro a b h
  simp only [mainCompare, Gene.gt, decide_eq_true_eq, decide_eq_false_iff_not, not_lt, gt_iff_lt] at h ⊢
  exact le_of_lt h

/-! ## Lemmas on the stream operators and the export loop -/

theorem getQuotedLoop_cons (c : Char) (t acc : Str) :
    getQuotedLoop (c :: t) acc =
      if c = escape then
        match t with
        | [] => none
        | d :: t1 => getQuotedLoop t1 (acc ++ [d])
      else if c = delim then some (acc, t)
      else getQuotedLoop t (acc ++ [c]) := by
  cases t with
  | nil => simp [getQuotedLoop]
  | cons d t1 => simp [getQuotedLoop]

theorem getQuotedLoop_delim (rest acc : Str) :
    getQuotedLoop (delim :: rest) acc = some (acc, rest) := by
  have h : delim ≠ escape := by decide
  rw [getQuotedLoop_cons, if_neg h, if_pos rfl]

theorem getQuotedLoop_escape (d : Char) (rest acc : Str) :
    getQuotedLoop (escape :: d :: rest) acc = getQuotedLoop rest (acc ++ [d]) := by
  rw [getQuotedLoop_cons, if_pos rfl]

theorem getQuotedLoop_plain (c : Char) (h1 : c ≠ delim) (h2 : c ≠ escape) (rest acc : Str) :
    getQuotedLoop (c :: rest) acc = getQuotedLoop rest (acc ++ [c]) := by
  rw [getQuotedLoop_cons, if_neg h2, if_neg h1]

theorem getQuotedLoop_put (rest : Str) (s : Str) :
    ∀ acc : Str,
      getQuotedLoop
          ((s.flatMap fun c => if c = delim ∨ c = escape then [escape, c] else [c])
            ++ delim :: rest) acc
        = some (acc ++ s, rest) := by
  induction s with
  | nil =>
    intro acc
    simp [getQuotedLoop_delim]
  | cons c s ih =>
    intro acc
    by_cases hc : c = delim ∨ c = escape
    · rw [List.flatMap_cons, if_pos hc]
      simp only [List.cons_append, List.nil_append, List.append_assoc]
      rw [getQuotedLoop_escape, ih]
      simp
    · have h1 : c ≠ delim := fun h => hc (Or.inl h)
      have h2 : c ≠ escape := fun h => hc (Or.inr h)
      rw [List.flatMap_cons, if_neg hc]
      simp only [List.cons_append, List.nil_append, List.append_assoc]
      rw [getQuotedLoop_plain c h1 h2, ih]
      simp

theorem skipws_delim (t : Str) : skipws (delim :: t) = delim :: t := by
  have h : isspace delim = false := by decide
  simp [skipws, h]

theorem skipws_comma (t : Str) : skipws (',' :: t) = ',' :: t := by
  have h : isspace ',' = false := by decide
  simp [skipws, h]

/-- Extraction of `std::quoted` reads back what insertion of `std::quoted`
wrote, whatever the string. -/
theorem getQuoted_putQuoted (s rest : Str) :
    getQuoted (putQuoted s ++ rest) = some (s, rest) := by
  unfold getQuoted putQuoted
  simp only [List.cons_append, List.append_assoc, List.singleton_append, List.nil_append]
  rw [skipws_delim]
  simp only [if_true]
  rw [getQuotedLoop_put]
  simp

theorem getChar_comma (t : Str) : getChar (',' :: t) = some (',', t) := by
  simp [getChar, skipws_comma]

/-- What `is >> gene` makes of the text `os << g`: identifier and sequence of
`g`, and propensity `0` whatever the number written and read. -/
theorem extractGene_insertGene (put : ℚ → Str) (get : Str → Option (ℚ × Str))
    (g target : Gene) :
    extractGene get (insertGene put g) target
      = (get (put g.propensity)).map fun pr => (Gene.mk g.ID g.sequence 0, pr.2) := by
  unfold extractGene insertGene
  simp only [List.append_assoc, List.singleton_append, getQuoted_putQuoted, getChar_comma,
    List.cons_append, List.nil_append]
  cases get (put g.propensity) with
  | none => rfl
  | some pr => rfl

theorem exportLoop_eq (genes : List Gene) :
    ∀ (remaining i : Nat), i + remaining ≤ genes.length →
      exportLoop genes remaining i = some ((genes.drop i).take remaining) := by
  intro remaining
  induction remaining with
  | zero => intro i _; simp [exportLoop]
  | succ k ih =>
    intro i h
    have hi : i < genes.length := by omega
    rw [exportLoop, List.get?_eq_get hi, ih (i + 1) (by omega)]
    simp only
    rw [List.drop_eq_getElem_cons hi, List.take_succ_cons]
    rfl

/-! ## Lemmas for short promoters and the table -/

theorem countOcc_of_length_lt (p m : Str) (h : p.length < m.length) : countOcc p m = 0 := by
  unfold countOcc occurrences
  rw [List.length_eq_zero, List.filter_eq_nil_iff]
  intro i _
  simp only [occursAt, beq_iff_eq, Bool.not_eq_true]
  intro heq
  have hl := congrArg List.length heq
  simp only [List.length_take, List.length_drop] at hl
  omega

theorem bindingSites_motif_length :
    ∀ site ∈ bindingSites, 5 ≤ site.motif.length ∧ site.motif.length ≤ 9 := by
  decide

/-! ## Lemmas on the trace of the scan loop -/

theorem scanTrace_ne_nil (prom motif : Str) :
    ∀ (fuel : Nat) (idx : Int) (tr : List Int),
      scanTrace prom motif fuel idx = some tr → tr ≠ [] := by
  intro fuel
  induction fuel with
  | zero => intro idx tr h; simp [scanTrace] at h
  | succ fuel ih =>
    intro idx tr h
    rw [scanTrace] at h
    by_cases h1 : (2 : Int) ^ 31 ≤ idx + 1
    · rw [if_pos h1] at h; exact absurd h (by simp)
    · rw [if_neg h1] at h
      by_cases h2 : toSizeT (toInt (find prom motif (toSizeT (idx + 1)))) ≠ npos
      · rw [if_pos h2] at h
        cases hrec : scanTrace prom motif fuel (toInt (find prom motif (toSizeT (idx + 1)))) with
        | none => rw [hrec] at h; exact absurd h (by simp)
        | some tr1 =>
          rw [hrec] at h
          simp only [Option.map_some', Option.some.injEq] at h
          rw [← h]
          exact List.cons_ne_nil _ _
      · rw [if_neg h2] at h
        simp only [Option.some.injEq] at h
        rw [← h]
        exact List.cons_ne_nil _ _

/-- The loop of `scan` is the loop of `scanTrace`: the score grows by `w` for
every stored value but the last. -/
theorem scan_eq_scanTrace (prom motif : Str) (w : ℚ) :
    ∀ (fuel : Nat) (idx : Int) (score : ℚ),
      scan prom motif w fuel idx score
        = (scanTrace prom motif fuel idx).map fun tr => score + ((tr.length - 1 : Nat) : ℚ) * w := by
  intro fuel
  induction fuel with
  | zero => intro idx score; rfl
  | succ fuel ih =>
    intro idx score
    rw [scan, scanTrace]
    by_cases h1 : (2 : Int) ^ 31 ≤ idx + 1
    · rw [if_pos h1, if_pos h1]; rfl
    · rw [if_neg h1, if_neg h1]
      by_cases h2 : toSizeT (toInt (find prom motif (toSizeT (idx + 1)))) ≠ npos
      · rw [if_pos h2, if_pos h2, ih]
        cases hrec : scanTrace prom motif fuel (toInt (find prom motif (toSizeT (idx + 1)))) with
        | none => rfl
        | some tr =>
          cases tr with
          | nil => exact absurd rfl (scanTrace_ne_nil prom motif _ _ _ hrec)
          | cons a tr =>
            simp only [Option.map_some', List.length_cons, Nat.add_sub_cancel, Option.some.injEq]
            push_cast
            ring
      · rw [if_neg h2, if_neg h2]
        simp

theorem occFrom_shift (m : Str) (t : Str) :
    ∀ i : Nat, occFrom m t i = (occFrom m t 0).map (· + i) := by
  induction t with
  | nil => intro i; rfl
  | cons c t ih =>
    intro i
    have h1 := ih (i + 1)
    have h2 := ih 1
    by_cases h : m.isPrefixOf (c :: t) = true
    · simp only [occFrom, h, if_true, List.map_cons, Nat.zero_add, List.cons.injEq, true_and]
      rw [h1, h2, List.map_map]
      apply List.map_congr_left
      intro a _
      simp only [Function.comp_apply]
      omega
    · have hf : m.isPrefixOf (c :: t) = false := Bool.eq_false_iff.mpr h
      simp only [occFrom, hf, Bool.false_eq_true, if_false, Nat.zero_add]
      rw [h1, h2, List.map_map]
      apply List.map_congr_left
      intro a _
      simp only [Function.comp_apply]
      omega

theorem occurrences_cons (c : Char) (t m : Str) :
    occurrences (c :: t) m
      = (if m.isPrefixOf (c :: t) then [0] else []) ++ (occurrences t m).map (· + 1) := by
  unfold occurrences
  rw [List.length_cons, List.range_succ_eq_map, List.filter_cons, List.filter_map,
    isPrefixOf_eq_occursAt_zero]
  have hfun : (occursAt (c :: t) m ∘ Nat.succ) = occursAt t m := by
    funext i
    exact occursAt_cons_succ c t m i
  rw [hfun]
  by_cases h : occursAt (c :: t) m 0 = true
  · simp [h]
  · simp [h]

theorem occFrom_zero (m t : Str) : occFrom m t 0 = occurrences t m := by
  induction t with
  | nil => rfl
  | cons c t ih =>
    rw [occurrences_cons, occFrom, occFrom_shift m t (0 + 1), ih]
    by_cases h : m.isPrefixOf (c :: t) = true
    · simp [h]
    · simp [h]

theorem findAux_occFrom {m : Str} (hm : m ≠ []) (t : Str) :
    ∀ p : Nat, (findAux m t p = npos ∧ occFrom m t p = []) ∨
      (∃ k, k < t.length ∧ findAux m t p = p + k ∧
        occFrom m t p = (p + k) :: occFrom m (t.drop (k + 1)) (p + k + 1)) := by
  induction t with
  | nil =>
    intro p
    left
    simp [findAux, occFrom, isPrefixOf_nil_of_ne hm]
  | cons c t ih =>
    intro p
    by_cases h : m.isPrefixOf (c :: t) = true
    · right
      exact ⟨0, by simp, by simp [findAux, h], by simp [occFrom, h]⟩
    · have hf : m.isPrefixOf (c :: t) = false := Bool.eq_false_iff.mpr h
      rcases ih (p + 1) with ⟨h1, h2⟩ | ⟨k, hk, h1, h2⟩
      · left
        simp [findAux, occFrom, hf, h1, h2]
      · right
        refine ⟨k + 1, by simpa using hk, ?_, ?_⟩
        · simp [findAux, hf, h1]; omega
        · simp only [occFrom, hf, Bool.false_eq_true, if_false, h2, List.drop_succ_cons]
          rw [show p + 1 + k = p + (k + 1) by omega]

/-- The loop invariant of `scanTrace`: entered with `idx = p - 1` on a promoter
shorter than `2 ^ 31`, the loop stores the start positions from `p` on, in
order and unchanged, and then `-1`. -/
theorem scanTrace_from {m : Str} (hm : m ≠ []) (prom : Str) (hlen : prom.length < 2 ^ 31) :
    ∀ (fuel p : Nat), p ≤ prom.length → prom.length - p < fuel →
      scanTrace prom m fuel ((p : Int) - 1)
        = some ((occFrom m (prom.drop p) p).map Int.ofNat ++ [-1]) := by
  intro fuel
  induction fuel with
  | zero => intro p _ h; omega
  | succ fuel ih =>
    intro p hp hfuel
    have h1 : ¬ ((2 : Int) ^ 31 ≤ (p : Int) - 1 + 1) := by
      have : (p : Int) < 2 ^ 31 := by exact_mod_cast (by omega : p < 2 ^ 31)
      omega
    have h2 : toSizeT ((p : Int) - 1 + 1) = p := by
      have : (p : Int) - 1 + 1 = (p : Int) := by ring
      rw [this]; exact toSizeT_natCast p (by omega)
    rw [scanTrace, if_neg h1]
    simp only [h2, find, if_pos hp]
    rcases findAux_occFrom hm (prom.drop p) p with ⟨e1, e2⟩ | ⟨k, hk, e1, e4⟩
    · simp [e1, e2, toInt_npos, toSizeT_neg_one]
    · have hk2 : p + k < prom.length := by
        simp only [List.length_drop] at hk; omega
      have e5 : toInt (p + k) = ((p + k : Nat) : Int) := toInt_of_lt _ (by omega)
      have e6 : toSizeT ((p + k : Nat) : Int) = p + k := toSizeT_natCast _ (by omega)
      have e7 : p + k ≠ npos := by unfold npos; omega
      rw [e1, e5, e6]
      simp only [ne_eq, e7, not_false_eq_true, if_true]
      have h := ih (p + k + 1) (by omega) (by omega)
      have hc : (((p + k + 1 : Nat) : Int) - 1) = ((p + k : Nat) : Int) := by push_cast; ring
      rw [hc] at h
      rw [h, e4, List.drop_drop]
      have hd : p + (k + 1) = p + k + 1 := by omega
      rw [hd]
      simp

theorem scanTrace_eq_occurrences {m : Str} (hm : m ≠ []) (prom : Str)
    (hlen : prom.length < 2 ^ 31) :
    scanTrace prom m (prom.length + 1) (-1)
      = some ((occurrences prom m).map Int.ofNat ++ [-1]) := by
  have h := scanTrace_from hm prom hlen (prom.length + 1) 0 (Nat.zero_le _) (by omega)
  simpa [occFrom_zero] using h

theorem occurrences_mem (p m : Str) (i : Nat) (h : i ∈ occurrences p m) :
    i < p.length ∧ occursAt p m i = true := by
  unfold occurrences at h
  rw [List.mem_filter, List.mem_range] at h
  exact h

theorem occurrences_increasing (p m : Str) : (occurrences p m).Pairwise (· < ·) := by
  unfold occurrences
  exact (List.pairwise_lt_range p.length).filter _

/-! ## Lemmas on the map and the loop over the table -/

theorem lookup_assign_self (m : SiteMap) (k : Str) (v : ℚ) : (m.assign k v).lookup k = some v := by
  induction m with
  | nil => simp [SiteMap.assign, SiteMap.lookup]
  | cons e rest ih =>
    obtain ⟨k1, v1⟩ := e
    by_cases h1 : k = k1
    · simp [SiteMap.assign, SiteMap.lookup, h1]
    · by_cases h2 : strLess k k1 = true
      · simp [SiteMap.assign, SiteMap.lookup, h1, h2]
      · simp [SiteMap.assign, SiteMap.lookup, h1, h2, ih]

theorem lookup_assign_ne (m : SiteMap) (k k2 : Str) (v : ℚ) (hne : k2 ≠ k) :
    (m.assign k v).lookup k2 = m.lookup k2 := by
  induction m with
  | nil => simp [SiteMap.assign, SiteMap.lookup, hne]
  | cons e rest ih =>
    obtain ⟨k1, v1⟩ := e
    by_cases h1 : k = k1
    · subst h1
      simp [SiteMap.assign, SiteMap.lookup, hne]
    · by_cases h2 : strLess k k1 = true
      · simp [SiteMap.assign, SiteMap.lookup, h1, h2, hne]
      · by_cases h3 : k2 = k1
        · simp [SiteMap.assign, SiteMap.lookup, h1, h2, h3]
        · simp [SiteMap.assign, SiteMap.lookup, h1, h2, h3, ih]

theorem sitesLoop_lookup_other (prom : Str) :
    ∀ (tbl : List BindingSite) (p : ℚ) (m0 : SiteMap) (total : ℚ) (m : SiteMap) (k : Str),
      sitesLoop prom tbl p (some m0) = some (total, some m) →
      k ∉ tbl.map (fun site => site.motif) → m.lookup k = m0.lookup k := by
  intro tbl
  induction tbl with
  | nil =>
    intro p m0 total m k h _
    simp only [sitesLoop, Option.some.injEq, Prod.mk.injEq] at h
    rw [← h.2]
  | cons site rest ih =>
    intro p m0 total m k h hk
    rw [sitesLoop] at h
    cases hs : siteScore prom site with
    | none => rw [hs] at h; exact absurd h (by simp)
    | some sc =>
      rw [hs] at h
      simp only [Option.map_some'] at h
      simp only [List.map_cons, List.mem_cons, not_or] at hk
      rw [ih _ _ _ _ k h hk.2, lookup_assign_ne _ _ _ _ hk.1]

/-- The value the loop over a table leaves under the motif of a row is the
score of the scan of that row, whatever the other rows are. -/
theorem sitesLoop_lookup (prom : Str) :
    ∀ (tbl : List BindingSite) (p : ℚ) (m0 : SiteMap) (total : ℚ) (m : SiteMap),
      (tbl.map fun site => site.motif).Nodup →
      sitesLoop prom tbl p (some m0) = some (total, some m) →
      ∀ site ∈ tbl, m.lookup site.motif = siteScore prom site := by
  intro tbl
  induction tbl with
  | nil => intro p m0 total m _ _ site hs; simp at hs
  | cons row rest ih =>
    intro p m0 total m hnd h site hsite
    rw [sitesLoop] at h
    cases hs : siteScore prom row with
    | none => rw [hs] at h; exact absurd h (by simp)
    | some sc =>
      rw [hs] at h
      simp only [Option.map_some'] at h
      rw [List.map_cons, List.nodup_cons] at hnd
      rcases List.mem_cons.mp hsite with e | e
      · rw [e, hs, sitesLoop_lookup_other prom rest _ _ _ _ _ h hnd.1, lookup_assign_self]
      · exact ih _ _ _ _ hnd.2 h site e

theorem scoreGenes_some (genes : List Gene) :
    ∀ out : List Gene, scoreGenes genes = some out →
      List.Forall₂ (fun g o => o.getID = g.getID ∧ o.getSequence = g.getSequence ∧
        ∃ r, propensity g.getSequence none = some r ∧ o.getPropensity = r.1) genes out := by
  induction genes with
  | nil =>
    intro out h
    simp only [scoreGenes, Option.some.injEq] at h
    rw [← h]
    exact List.Forall₂.nil
  | cons g rest ih =>
    intro out h
    rw [scoreGenes] at h
    cases hp : propensity g.getSequence none with
    | none => rw [hp] at h; exact absurd h (by simp)
    | some r =>
      cases hr : scoreGenes rest with
      | none => rw [hp, hr] at h; exact absurd h (by simp)
      | some out1 =>
        rw [hp, hr] at h
        simp only [Option.some.injEq] at h
        rw [← h]
        exact List.Forall₂.cons ⟨rfl, rfl, r, hp, rfl⟩ (ih out1 hr)

theorem scoreGenes_isSome (genes : List Gene) :
    (scoreGenes genes).isSome = genes.all fun g => (propensity g.getSequence none).isSome := by
  induction genes with
  | nil => rfl
  | cons g rest ih =>
    rw [scoreGenes, List.all_cons, ← ih]
    cases propensity g.getSequence none <;> cases scoreGenes rest <;> rfl

/-! ## Lemmas on permutation, inversions and stability of `bubbleSort` -/

theorem bubbleSort_perm_of_some {T : Type} (compare : T → T → Bool) :
    ∀ (fuel : Nat) (vec r : List T), bubbleSort compare fuel vec = some r → List.Perm r vec := by
  intro fuel
  induction fuel with
  | zero => intro vec r h; simp [bubbleSort] at h
  | succ fuel ih =>
    intro vec r h
    by_cases hs : (doBody compare vec).2 = true
    · simp only [bubbleSort, hs, if_true, Option.some.injEq] at h
      rw [← h]
      exact doBody_perm compare vec
    · simp only [bubbleSort, hs] at h
      exact (ih _ _ h).trans (doBody_perm compare vec)

theorem inversions_swap {T : Type} (compare : T → T → Bool)
    (hasym : ∀ a b, compare a b = true → compare b a = false)
    (prev cur : T) (rest : List T) (hc : compare cur prev = true) :
    ∀ pre : List T,
      inversions compare (pre ++ cur :: prev :: rest) + 1
        = inversions compare (pre ++ prev :: cur :: rest) := by
  intro pre
  induction pre with
  | nil =>
    have h0 : compare prev cur = false := hasym _ _ hc
    simp only [List.nil_append, inversions, List.countP_cons, hc, h0]
    simp
    omega
  | cons x pre ih =>
    have hp : List.Perm (pre ++ cur :: prev :: rest) (pre ++ prev :: cur :: rest) :=
      List.Perm.append_left pre (List.Perm.swap prev cur rest)
    have hcount := hp.countP_eq (fun y => compare y x)
    rw [List.cons_append, List.cons_append, inversions, inversions, hcount]
    omega

theorem set_set_eq_swap {T : Type} (vec : List T) (i : Nat) (cur prev : T) (hi : 1 ≤ i)
    (h1 : vec.get? i = some cur) (h2 : vec.get? (i - 1) = some prev) :
    vec = vec.take (i - 1) ++ prev :: cur :: vec.drop (i + 1) ∧
    (vec.set i prev).set (i - 1) cur = vec.take (i - 1) ++ cur :: prev :: vec.drop (i + 1) := by
  obtain ⟨j, rfl⟩ : ∃ j, i = j + 1 := ⟨i - 1, by omega⟩
  simp only [Nat.add_sub_cancel] at h2 ⊢
  rw [List.get?_eq_some] at h1 h2
  obtain ⟨hj1, e1⟩ := h1
  obtain ⟨hj, e2⟩ := h2
  have hdec : vec = vec.take j ++ prev :: cur :: vec.drop (j + 1 + 1) := by
    conv_lhs => rw [← List.take_append_drop j vec]
    rw [List.drop_eq_getElem_cons hj, List.drop_eq_getElem_cons hj1]
    simp only [List.get_eq_getElem] at e1 e2
    rw [e1, e2]
  refine ⟨hdec, ?_⟩
  have hlen : (vec.take j).length = j := by simp; omega
  conv_lhs => rw [hdec]
  rw [List.set_append_right _ _ (by omega), hlen]
  simp only [Nat.add_sub_cancel_left, List.set_cons_succ, List.set_cons_zero]
  rw [List.set_append_right _ _ (by omega), hlen]
  simp

theorem bubblePass_filter {T : Type} (compare : T → T → Bool) (q : T → Bool)
    (hq : ∀ a b, compare a b = true → q a = true → q b = false) (rest : List T) :
    ∀ prev : T, (bubblePass compare prev rest).1.filter q = (prev :: rest).filter q := by
  induction rest with
  | nil => intro prev; simp [bubblePass]
  | cons cur rest ih =>
    intro prev
    by_cases hc : compare cur prev = true
    · simp only [bubblePass, hc, if_true]
      rw [List.filter_cons, ih prev]
      by_cases h1 : q cur = true
      · have h2 : q prev = false := hq _ _ hc h1
        simp [List.filter_cons, h1, h2]
      · simp [List.filter_cons, h1]
    · have hf : compare cur prev = false := Bool.eq_false_iff.mpr hc
      simp only [bubblePass, hf, Bool.false_eq_true, if_false]
      rw [List.filter_cons, ih cur, ← List.filter_cons]

theorem doBody_filter {T : Type} (compare : T → T → Bool) (q : T → Bool)
    (hq : ∀ a b, compare a b = true → q a = true → q b = false) (vec : List T) :
    (doBody compare vec).1.filter q = vec.filter q := by
  cases vec with
  | nil => simp [doBody_nil]
  | cons x t => rw [doBody_cons]; exact bubblePass_filter compare q hq t x

theorem bubbleSort_filter {T : Type} (compare : T → T → Bool) (q : T → Bool)
    (hq : ∀ a b, compare a b = true → q a = true → q b = false) :
    ∀ (fuel : Nat) (vec r : List T), bubbleSort compare fuel vec = some r →
      r.filter q = vec.filter q := by
  intro fuel
  induction fuel with
  | zero => intro vec r h; simp [bubbleSort] at h
  | succ fuel ih =>
    intro vec r h
    by_cases hs : (doBody compare vec).2 = true
    · simp only [bubbleSort, hs, if_true, Option.some.injEq] at h
      rw [← h]
      exact doBody_filter compare q hq vec
    · simp only [bubbleSort, hs] at h
      exact (ih _ _ h).trans (doBody_filter compare q hq vec)

theorem mainCompare_samePropensity (p : ℚ) (a b : Gene) (h : mainCompare a b = true)
    (ha : decide (a.propensity = p) = true) : decide (b.propensity = p) = false := by
  simp only [mainCompare, Gene.gt, decide_eq_true_eq, decide_eq_false_iff_not, gt_iff_lt] at *
  intro hb
  rw [ha, hb] at h
  exact lt_irrefl p h

/-- Two lists in descending order of propensity that hold, for every
propensity, the same records in the same order are equal. -/
theorem eq_of_descending_of_filter :
    ∀ (l1 l2 : List Gene),
      l1.Pairwise (fun x y => x.propensity ≥ y.propensity) →
      l2.Pairwise (fun x y => x.propensity ≥ y.propensity) →
      (∀ p : ℚ, l1.filter (fun g => decide (g.propensity = p))
        = l2.filter (fun g => decide (g.propensity = p))) →
      l1 = l2 := by
  intro l1
  induction l1 with
  | nil =>
    intro l2 _ _ h
    cases l2 with
    | nil => rfl
    | cons y t2 =>
      have := h y.propensity
      simp at this
  | cons x t1 ih =>
    intro l2 s1 s2 h
    cases l2 with
    | nil =>
      have := h x.propensity
      simp at this
    | cons y t2 =>
      have hx : x ∈ y :: t2 := by
        have hm : x ∈ (x :: t1).filter (fun g => decide (g.propensity = x.propensity)) := by
          simp
        rw [h x.propensity] at hm
        exact (List.mem_filter.mp hm).1
      have hy : y ∈ x :: t1 := by
        have hm : y ∈ (y :: t2).filter (fun g => decide (g.propensity = y.propensity)) := by
          simp
        rw [← h y.propensity] at hm
        exact (List.mem_filter.mp hm).1
      have hxy : x.propensity ≤ y.propensity := by
        rcases List.mem_cons.mp hx with e | e
        · rw [e]
        · exact (List.pairwise_cons.mp s2).1 x e
      have hyx : y.propensity ≤ x.propensity := by
        rcases List.mem_cons.mp hy with e | e
        · rw [e]
        · exact (List.pairwise_cons.mp s1).1 y e
      have hkey : y.propensity = x.propensity := le_antisymm hyx hxy
      have hhead := h x.propensity
      simp only [List.filter_cons, hkey, decide_True, if_true, List.cons.injEq] at hhead
      obtain ⟨hxeq, _⟩ := hhead
      subst hxeq
      congr 1
      refine ih t2 (List.pairwise_cons.mp s1).2 (List.pairwise_cons.mp s2).2 ?_
      intro p
      have hp := h p
      simp only [List.filter_cons] at hp
      by_cases hq : x.propensity = p
      · simpa [hq] using hp
      · simpa [hq] using hp

theorem stableSortDescending_filter (genes : List Gene) (p : ℚ) :
    (stableSortDescending genes).filter (fun g => decide (g.propensity = p))
      = genes.filter (fun g => decide (g.propensity = p)) := by
  have hsub : List.Sublist (genes.filter (fun g => decide (g.propensity = p)))
      (stableSortDescending genes) := by
    refine List.sublist_mergeSort ?_ ?_ ?_ (List.filter_sublist genes)
    · intro a b c hab hbc
      simp only [decide_eq_true_eq, ge_iff_le] at *
      exact le_trans hbc hab
    · intro a b
      simp only [Bool.or_eq_true, decide_eq_true_eq, ge_iff_le]
      exact le_total _ _
    · refine List.pairwise_of_forall_mem_list ?_
      intro a ha b hb
      have h1 := (List.mem_filter.mp ha).2
      have h2 := (List.mem_filter.mp hb).2
      simp only [decide_eq_true_eq] at h1 h2
      simp [h1, h2]
  have hsub2 := hsub.filter (fun g => decide (g.propensity = p))
  rw [List.filter_filter] at hsub2
  simp only [Bool.and_self] at hsub2
  have hperm : List.Perm ((stableSortDescending genes).filter (fun g => decide (g.propensity = p)))
      (genes.filter (fun g => decide (g.propensity = p))) :=
    (List.mergeSort_perm genes _).filter _
  exact (hsub2.eq_of_length hperm.length_eq.symm).symm

theorem stableSortDescending_sorted (genes : List Gene) :
    (stableSortDescending genes).Pairwise (fun x y => x.propensity ≥ y.propensity) := by
  have h := @List.sorted_mergeSort Gene (fun a b => decide (a.propensity ≥ b.propensity))
    (by
      intro a b c hab hbc
      simp only [decide_eq_true_eq, ge_iff_le] at *
      exact le_trans hbc hab)
    (by
      intro a b
      simp only [Bool.or_eq_true, decide_eq_true_eq, ge_iff_le]
      exact le_total _ _) genes
  exact h.imp (by intro a b hab; simpa using hab)

theorem pairwise_of_chain_descending (r : List Gene)
    (h : List.Chain' (fun x y => mainCompare y x = false) r) :
    r.Pairwise (fun x y => x.propensity ≥ y.propensity) := by
  have h1 : List.Chain' (fun x y : Gene => x.propensity ≥ y.propensity) r :=
    h.imp (by intro x y hxy; simpa [mainCompare, Gene.gt] using hxy)
  haveI : IsTrans Gene (fun x y => x.propensity ≥ y.propensity) :=
    ⟨fun a b c hab hbc => le_trans hbc hab⟩
  exact List.chain'_iff_pairwise.mp h1

/-- The result pattern of `bubbleSort` with the comparator of `main`: a fixed
list for every fuel above the square of the length, which is a permutation of
the input, in descending order, with every class of equal propensity in its
input order. -/
theorem bubbleSort_main (genes : List Gene) :
    ∃ r, (∀ extra : Nat,
        bubbleSort mainCompare (inversions mainCompare genes + 1 + extra) genes = some r) ∧
      List.Perm r genes ∧
      r.Pairwise (fun x y => x.propensity ≥ y.propensity) ∧
      (∀ p : ℚ, r.filter (fun g => decide (g.propensity = p))
        = genes.filter (fun g => decide (g.propensity = p))) := by
  obtain ⟨r, h1, h2, h3⟩ := bubbleSort_terminates mainCompare mainCompare_asymm
    (inversions mainCompare genes + 1) genes (Nat.lt_succ_self _)
  refine ⟨r, fun extra => bubbleSort_fuel_mono mainCompare extra _ _ _ h1, h2,
    pairwise_of_chain_descending r h3, fun p => ?_⟩
  exact bubbleSort_filter mainCompare _ (mainCompare_samePropensity p) _ _ _ h1

theorem fuel_square_split (genes : List Gene) (extra : Nat) :
    genes.length * genes.length + 1 + extra
      = inversions mainCompare genes + 1
        + (genes.length * genes.length - inversions mainCompare genes + extra) := by
  have := inversions_le mainCompare genes
  omega

/-! ## The claims -/

/-- Claim C1, at a failing input.  On `2 ^ 31` letters `c` followed by
`acgggacggg` the motif `acggg` occurs twice (the total of occurrences times
weight is `1.9274`), but `propensity` returns `0.9637`: the match position
`2 ^ 31` does not fit the `int` index, and the second search starts beyond the
end of the promoter. -/
theorem propensity_long_promoter_total :
    propensity (longProm (2 ^ 31) "acgggacggg".toList) none = some (0.9637, none) ∧
    specTotal (longProm (2 ^ 31) "acgggacggg".toList) = 1.9274 ∧
    countOcc (promoter (longProm (2 ^ 31) "acgggacggg".toList)) "acggg".toList = 2 := by
  refine ⟨?_, ?_, ?_⟩
  · rw [propensity_longProm (2 ^ 31) rfl "acgggacggg".toList (by decide) (by decide) (by decide)]
    decide!
  · rw [specTotal_longProm (2 ^ 31) "acgggacggg".toList (by decide) (by decide)]
    decide!
  · rw [promoter_longProm, show promoter "acgggacggg".toList = "acgggacggg".toList by decide]
    exact (countOcc_longProm (2 ^ 31) "acgggacggg".toList ⟨"acggg".toList, 0.9637⟩ rfl).trans
      (by decide)

/-- Claim C2.  On the promoter `aaaa` the scan counts the motif `aaa` twice,
overlap included.  At a failing input, `2 ^ 31` letters `c` followed by `aaaa`,
the motif occurs twice as well, but the scan adds the weight once: the match
position `2 ^ 31` does not fit the `int` index, and the second search starts
beyond the end of the promoter. -/
theorem scan_long_promoter_count (w : ℚ) :
    scan "aaaa".toList "aaa".toList w ("aaaa".toList.length + 1) (-1) 0 = some (2 * w) ∧
    scan (longProm (2 ^ 31) "aaaa".toList) "aaa".toList w
        ((longProm (2 ^ 31) "aaaa".toList).length + 1) (-1) 0 = some w ∧
    countOcc (longProm (2 ^ 31) "aaaa".toList) "aaa".toList = 2 := by
  refine ⟨?_, ?_, ?_⟩
  · rw [scan_eq_count (by decide) "aaaa".toList w (by decide) _ (Nat.lt_succ_self _),
      show countOcc "aaaa".toList "aaa".toList = 2 by decide]
    norm_num
  · have hfind : findAux "aaa".toList "aaaa".toList (2 ^ 31) = 2 ^ 31 := by decide
    have h := siteScore_longProm (2 ^ 31) rfl "aaaa".toList (by decide) ⟨"aaa".toList, w⟩ rfl
      (Or.inl hfind)
    rw [longScore, if_pos hfind] at h
    exact h
  · exact (countOcc_longProm (2 ^ 31) "aaaa".toList ⟨"aaa".toList, 0⟩ rfl).trans (by decide)

/-- Claim C3, at a failing input.  On `2 ^ 31` letters `c` followed by
`accgacaccgac`, `propensity` called with an empty map leaves 17 entries whose
values sum to the returned total `0.8076`, but the entry of `accgac` holds
`0.8076`, not occurrences times weight, which is `2 × 0.8076 = 1.6152`. -/
theorem propensity_long_promoter_map :
    ∃ m : SiteMap,
      propensity (longProm (2 ^ 31) "accgacaccgac".toList) (some []) = some (0.8076, some m) ∧
      m.length = 17 ∧ (m.map Prod.snd).sum = 0.8076 ∧
      m.lookup "accgac".toList = some 0.8076 ∧
      (countOcc (promoter (longProm (2 ^ 31) "accgacaccgac".toList)) "accgac".toList : ℚ)
        * 0.8076 = 1.6152 := by
  refine ⟨bindingSites.foldl (fun acc site =>
    acc.assign site.motif (longScore (2 ^ 31) "accgacaccgac".toList site)) [], ?_, ?_, ?_, ?_, ?_⟩
  · rw [propensity_longProm (2 ^ 31) rfl "accgacaccgac".toList (by decide) (by decide)
      (by decide)]
    have h : (bindingSites.map (longScore (2 ^ 31) "accgacaccgac".toList)).sum = 0.8076 := by
      decide!
    rw [h]
    rfl
  · decide!
  · decide!
  · decide!
  · rw [promoter_longProm, show promoter "accgacaccgac".toList = "accgacaccgac".toList by decide,
      countOcc_longProm (2 ^ 31) "accgacaccgac".toList ⟨"accgac".toList, 0.8076⟩ rfl,
      show countOcc "accgacaccgac".toList "accgac".toList = 2 by decide]
    norm_num

/-- Claim C4.  The promoter built by `propensity` is the list of the lowercase
letters of the sequence, unchanged and in order: it holds lowercase letters
only, is a subsequence of the sequence, keeps every lowercase letter as often
as the sequence has it, and holds no uppercase letter, digit or punctuation
character. -/
theorem promoter_lowercase_subsequence (s : Str) :
    promoter s = s.filter Char.isLower ∧
    (∀ c ∈ promoter s, c.isLower = true) ∧
    List.Sublist (promoter s) s ∧
    (∀ c, c.isLower = true → (promoter s).count c = s.count c) ∧
    (∀ c, (c.isUpper = true ∨ c.isDigit = true ∨ ispunct c = true) → c ∉ promoter s) := by
  have h0 : promoter s = s.filter Char.isLower := by
    have hfun : islower = Char.isLower := funext islower_eq_isLower
    rw [promoter, hfun]
  refine ⟨h0, ?_, ?_, ?_, ?_⟩
  · intro c hc
    rw [h0] at hc
    exact (List.mem_filter.mp hc).2
  · exact List.filter_sublist s
  · intro c hc
    rw [h0, List.count_filter hc]
  · intro c hc hmem
    have h1 := (islower_iff c).mp (List.mem_filter.mp hmem).2
    rcases hc with h | h | h
    · have := (isUpper_iff c).mp h; omega
    · have := (isDigit_iff c).mp h; omega
    · have := (ispunct_iff c).mp h; omega

/-- Claim C5.  With the comparator of `main`, `bubbleSort` ends on every vector
of genes (every fuel above the square of the length gives the same result), and
every adjacent pair of the result is in descending order of propensity,
duplicates allowed; the empty vector and a vector of one gene come back as
they are. -/
theorem bubbleSort_descending (genes : List Gene) :
    (∃ r, (∀ extra : Nat,
          bubbleSort mainCompare (genes.length * genes.length + 1 + extra) genes = some r) ∧
        List.Chain' (fun x y => x.propensity ≥ y.propensity) r) ∧
    (∀ fuel : Nat, bubbleSort mainCompare (fuel + 1) [] = some []) ∧
    (∀ (g : Gene) (fuel : Nat), bubbleSort mainCompare (fuel + 1) [g] = some [g]) := by
  refine ⟨?_, ?_, ?_⟩
  · obtain ⟨r, h1, _, h3⟩ := bubbleSort_terminates mainCompare mainCompare_asymm
      (inversions mainCompare genes + 1) genes (Nat.lt_succ_self _)
    refine ⟨r, ?_, ?_⟩
    · intro extra
      have hle := inversions_le mainCompare genes
      have h := bubbleSort_fuel_mono mainCompare
        (genes.length * genes.length + 1 + extra - (inversions mainCompare genes + 1)) _ _ _ h1
      rwa [Nat.add_sub_cancel' (by omega)] at h
    · refine List.Chain'.imp ?_ h3
      intro x y h
      simpa [mainCompare, Gene.gt] using h
  · intro fuel
    simp [bubbleSort, doBody_nil]
  · intro g fuel
    simp [bubbleSort, doBody_cons, bubblePass]

/-- Claim C6.  The export loop writes exactly the first `min N n` records of
the ranked vector, in order: all of them when `N` exceeds `n`, none when
`N = 0`, none from an empty vector. -/
theorem exportTop_first_min (requested : Nat) (genes : List Gene) :
    exportTop requested genes = some (genes.take (min requested genes.length)) ∧
    (∀ extra : Nat, exportTop (genes.length + extra) genes = some genes) ∧
    exportTop 0 genes = some [] ∧
    exportTop requested [] = some [] ∧
    exportTop 20 genes = some (genes.take (min 20 genes.length)) := by
  have h : ∀ N : Nat, exportTop N genes = some (genes.take (min N genes.length)) := by
    intro N
    unfold exportTop
    rw [exportLoop_eq genes _ 0 (by omega)]
    simp
  refine ⟨h requested, ?_, ?_, ?_, h 20⟩
  · intro extra
    rw [h]
    simp
  · rw [h]; simp
  · simp [exportTop, exportLoop]

/-- Claim C7, at the input of the unit test.  The text written for
`("gene1", "ACGT", 3.14)` is read back with identifier `gene1`, sequence `ACGT`
and propensity `0`, not `3.14`, whenever the extraction succeeds, and whatever
text the stream library writes and reads for a number: `operator>>` overwrites
the gene with `Gene(ID, sequence)` after the number has been read. -/
theorem stream_roundtrip_gene1 (put : ℚ → Str) (get : Str → Option (ℚ × Str)) :
    extractGene get (insertGene put ⟨"gene1".toList, "ACGT".toList, 3.14⟩) Gene.default
        = (get (put 3.14)).map (fun pr => (Gene.mk "gene1".toList "ACGT".toList 0, pr.2)) ∧
    (Gene.mk "gene1".toList "ACGT".toList 0).getPropensity
        ≠ (Gene.mk "gene1".toList "ACGT".toList 3.14).getPropensity ∧
    Gene.default.getPropensity ≠ (Gene.mk "gene1".toList "ACGT".toList 3.14).getPropensity := by
  refine ⟨extractGene_insertGene put get _ _, ?_, ?_⟩ <;>
    simp [Gene.getPropensity, Gene.default] <;> norm_num

/-- Claim C8, as the specification states it, fails: the promoter of
`ACGTaccgacGGGaccgacTTT` is not `accgacgggaccgacttt` (the uppercase runs are
dropped, not folded to lowercase), and the motif `accgac` does not start at
offset 12, neither in the promoter nor in the string the claim names. -/
theorem scenario_promoter_not_folded :
    ¬ (promoter "ACGTaccgacGGGaccgacTTT".toList = "accgacgggaccgacttt".toList ∧
        occurrences (promoter "ACGTaccgacGGGaccgacTTT".toList) "accgac".toList = [0, 12]) ∧
    occursAt (promoter "ACGTaccgacGGGaccgacTTT".toList) "accgac".toList 12 = false ∧
    occurrences "accgacgggaccgacttt".toList "accgac".toList = [0, 9] := by
  decide

/-- Claim C8, amended.  The promoter of `ACGTaccgacGGGaccgacTTT` is
`accgacaccgac`, and the motif `accgac` occurs in it at exactly the offsets 0
and 6. -/
theorem scenario_promoter_offsets :
    promoter "ACGTaccgacGGGaccgacTTT".toList = "accgacaccgac".toList ∧
    occurrences (promoter "ACGTaccgacGGGaccgacTTT".toList) "accgac".toList = [0, 6] := by
  decide

/-- Claim C9.  For `ACGTaccgacGGGaccgacTTT`, `propensity` records
`2 × 0.8076 = 1.6152` for the motif `accgac` and `0` for each of the other 16
motifs, and returns the total `1.6152`, with and without a map. -/
theorem scenario_contributions :
    ∃ m : SiteMap,
      propensity "ACGTaccgacGGGaccgacTTT".toList (some []) = some (1.6152, some m) ∧
      propensity "ACGTaccgacGGGaccgacTTT".toList none = some (1.6152, none) ∧
      m.lookup "accgac".toList = some (2 * 0.8076) ∧ (2 * 0.8076 : ℚ) = 1.6152 ∧
      m.length = 17 ∧
      (∀ site ∈ bindingSites, site.motif ≠ "accgac".toList → m.lookup site.motif = some 0) := by
  refine ⟨contributions (promoter "ACGTaccgacGGGaccgacTTT".toList) [], ?_, ?_, ?_, ?_, ?_, ?_⟩
  · decide!
  · decide!
  · decide!
  · norm_num
  · decide!
  · decide!

/-- Claim C10.  For a sequence without a lowercase letter the promoter is
empty, `propensity` returns `0`, and the map it fills holds 17 entries, one for
each motif of the table, each `0`. -/
theorem propensity_no_lowercase (s : Str) (h : ∀ c ∈ s, islower c = false) :
    promoter s = [] ∧
    propensity s none = some (0, none) ∧
    ∃ m : SiteMap, propensity s (some []) = some (0, some m) ∧ m.length = 17 ∧
      ∀ site ∈ bindingSites, m.lookup site.motif = some 0 := by
  have hp : promoter s = [] := by
    unfold promoter
    rw [List.filter_eq_nil_iff]
    intro c hc
    simp [h c hc]
  refine ⟨hp, ?_, contributions [] [], ?_, ?_, ?_⟩
  · unfold propensity
    rw [hp]
    decide!
  · unfold propensity
    rw [hp]
    decide!
  · decide!
  · decide!

/-- Claim C10 at the sequences `ACGT` and the empty string. -/
theorem propensity_no_lowercase_witness :
    (promoter "ACGT".toList = [] ∧ propensity "ACGT".toList none = some (0, none)) ∧
    (promoter [] = [] ∧ propensity [] none = some (0, none)) :=
  ⟨⟨(propensity_no_lowercase "ACGT".toList (by decide)).1,
      (propensity_no_lowercase "ACGT".toList (by decide)).2.1⟩,
    ⟨(propensity_no_lowercase [] (by simp)).1, (propensity_no_lowercase [] (by simp)).2.1⟩⟩

/-- Claim C11.  A motif of the table that is longer than the promoter occurs
in it at no position and its scan ends with the contribution `0`; a sequence
with fewer than 5 lowercase letters, 5 being the least length of a motif of
the table, has the total propensity `0`. -/
theorem motif_longer_than_promoter (p : Str) (site : BindingSite)
    (hsite : site ∈ bindingSites) (hlong : p.length < site.motif.length)
    (s : Str) (hshort : (promoter s).length < 5) :
    (countOcc p site.motif = 0 ∧ siteScore p site = some 0) ∧
    (∀ row ∈ bindingSites, countOcc (promoter s) row.motif = 0) ∧
    propensity s none = some (0, none) ∧
    (∀ row ∈ bindingSites, 5 ≤ row.motif.length) := by
  have hzero : ∀ row ∈ bindingSites, countOcc (promoter s) row.motif = 0 := fun row hrow =>
    countOcc_of_length_lt _ _ (by have := (bindingSites_motif_length row hrow).1; omega)
  refine ⟨⟨countOcc_of_length_lt p _ hlong, ?_⟩, hzero, ?_,
    fun row hrow => (bindingSites_motif_length row hrow).1⟩
  · have h9 := (bindingSites_motif_length site hsite).2
    rw [siteScore_eq_count p (by omega) site hsite, countOcc_of_length_lt p _ hlong]
    simp
  · rw [propensity_of_short s (by omega) none]
    have hsum : specTotal s = 0 := by
      unfold specTotal
      apply List.sum_eq_zero
      intro x hx
      obtain ⟨row, hrow, rfl⟩ := List.mem_map.mp hx
      rw [hzero row hrow]
      simp
    rw [hsum]
    rfl

/-- Claim C11 at the promoter `acg` with the row of `acggg`, and at the
sequence `ACGTacgt` with its four lowercase letters. -/
theorem motif_longer_than_promoter_witness :
    (countOcc "acg".toList "acggg".toList = 0 ∧
      siteScore "acg".toList ⟨"acggg".toList, 0.9637⟩ = some 0) ∧
    propensity "ACGTacgt".toList none = some (0, none) :=
  have h := motif_longer_than_promoter "acg".toList ⟨"acggg".toList, 0.9637⟩
    (.tail _ (.tail _ (.tail _ (.tail _ (.head _)))))
    (by decide) "ACGTacgt".toList (by decide)
  ⟨h.1, h.2.2.1⟩

/-- Claim C12.  The table of `propensity` has exactly the 17 rows of the
specification, motif and weight, in this order; the motifs are not empty,
pairwise distinct and written with the letters `a`, `c`, `g`, `t` only, and
the ambiguous motif `rccgac` stands in it as the two rows `accgac` and
`gccgac` with the one weight `0.8076`. -/
theorem bindingSites_table :
    bindingSites.map (fun site => (String.mk site.motif, site.score)) =
      [("aaaccctaa", 2.9895), ("ggaagggt", 1.3346), ("ggtagggt", 1.3346), ("aacgtgt", 1.1033),
       ("acggg", 0.9637), ("gcggcaaa", 0.9067), ("gttaggtt", 0.8397), ("accgac", 0.8076),
       ("gccgac", 0.8076), ("gataaga", -3.3202), ("gataagg", -3.3202), ("gataa", -2.1431),
       ("gataag", -0.7107), ("ggata", -3.2140), ("acgtggca", -1.1698), ("taacgta", -0.9167),
       ("aaaatatct", -0.8441)] ∧
    bindingSites.length = 17 ∧
    (∀ site ∈ bindingSites, site.motif ≠ []) ∧
    (bindingSites.map fun site => site.motif).Nodup ∧
    (∀ site ∈ bindingSites, ∀ c ∈ site.motif, c = 'a' ∨ c = 'c' ∨ c = 'g' ∨ c = 't') ∧
    (bindingSites.filter fun site =>
        site.motif.length == 6 && site.motif.drop 1 == "ccgac".toList).map
      (fun site => (String.mk site.motif, site.score)) = [("accgac", 0.8076), ("gccgac", 0.8076)] := by
  refine ⟨by decide!, by decide, by decide, by decide, by decide, by decide!⟩

/-- Claim C13.  Each of the six relational operators of `Gene` gives the result
of the same comparison of the two propensities, so genes that differ in
identifier and sequence but not in propensity compare equal; and `a > b` is
`b < a`, `a >= b` is the negation of `a < b`, `a != b` the negation of
`a == b`. -/
theorem relational_operators_by_propensity (a b : Gene) :
    (a.lt b = decide (a.propensity < b.propensity) ∧
      a.gt b = decide (a.propensity > b.propensity) ∧
      a.le b = decide (a.propensity ≤ b.propensity) ∧
      a.ge b = decide (a.propensity ≥ b.propensity) ∧
      a.eq b = decide (a.propensity = b.propensity) ∧
      a.ne b = decide (a.propensity ≠ b.propensity)) ∧
    (∀ (id1 seq1 id2 seq2 : Str) (p : ℚ),
      Gene.eq ⟨id1, seq1, p⟩ ⟨id2, seq2, p⟩ = true ∧ Gene.ne ⟨id1, seq1, p⟩ ⟨id2, seq2, p⟩ = false ∧
      Gene.lt ⟨id1, seq1, p⟩ ⟨id2, seq2, p⟩ = false ∧ Gene.gt ⟨id1, seq1, p⟩ ⟨id2, seq2, p⟩ = false ∧
      Gene.le ⟨id1, seq1, p⟩ ⟨id2, seq2, p⟩ = true ∧ Gene.ge ⟨id1, seq1, p⟩ ⟨id2, seq2, p⟩ = true) ∧
    (a.gt b = b.lt a) ∧ (a.ge b = !a.lt b) ∧ (a.ne b = !a.eq b) ∧ (a.le b = !a.gt b) := by
  refine ⟨⟨rfl, rfl, rfl, rfl, ?_, ?_⟩, ?_, ?_, ?_, ?_, ?_⟩
  · rw [Bool.eq_iff_iff]; simp [Gene.eq]
  · rw [Bool.eq_iff_iff]; simp [Gene.ne]
  · intro id1 seq1 id2 seq2 p
    simp [Gene.eq, Gene.ne, Gene.lt, Gene.gt, Gene.le, Gene.ge]
  · simp [Gene.gt, Gene.lt]
  · simp only [Gene.ge, Gene.lt, ge_iff_le, ← not_lt, decide_not]
  · simp [Gene.ne, Gene.eq, bne]
  · simp only [Gene.le, Gene.gt, gt_iff_lt, ← not_lt, decide_not]

/-- Claim C14.  With the comparator of `main`, `bubbleSort` returns a
permutation of its input: same length, and every record as often as in the
input.  With any comparator at all, a vector it returns is such a permutation
(only then the loop need not end). -/
theorem bubbleSort_permutation (genes : List Gene) :
    (∃ r, (∀ extra : Nat,
          bubbleSort mainCompare (genes.length * genes.length + 1 + extra) genes = some r) ∧
        List.Perm r genes ∧ r.length = genes.length ∧ ∀ g : Gene, r.count g = genes.count g) ∧
    (∀ (compare : Gene → Gene → Bool) (fuel : Nat) (r : List Gene),
        bubbleSort compare fuel genes = some r →
        List.Perm r genes ∧ r.length = genes.length ∧ ∀ g : Gene, r.count g = genes.count g) := by
  constructor
  · obtain ⟨r, h1, h2, _, _⟩ := bubbleSort_main genes
    refine ⟨r, fun extra => ?_, h2, h2.length_eq, fun g => h2.count_eq g⟩
    rw [fuel_square_split]
    exact h1 _
  · intro compare fuel r h
    have hp := bubbleSort_perm_of_some compare fuel genes r h
    exact ⟨hp, hp.length_eq, fun g => hp.count_eq g⟩

/-- Claim C15.  A default-constructed `Gene` has empty identifier and sequence
and propensity `0`; `Gene(id, seq)` stores both with propensity `0`;
`setPropensity(p)` makes `getPropensity` return `p` and leaves identifier and
sequence alone.  The scoring loop of `main` ends exactly when every call of
`propensity` does (as on promoters shorter than `2 ^ 31`), and then every
record keeps identifier and sequence and carries the total that `propensity`
returns for its own sequence with a null map. -/
theorem gene_fields_and_scoring (g : Gene) (p : ℚ) (genes : List Gene) :
    (Gene.default.getID = [] ∧ Gene.default.getSequence = [] ∧
      Gene.default.getPropensity = 0) ∧
    (∀ id seq : Str, (Gene.new id seq).getID = id ∧ (Gene.new id seq).getSequence = seq ∧
      (Gene.new id seq).getPropensity = 0) ∧
    ((g.setPropensity p).getPropensity = p ∧ (g.setPropensity p).getID = g.getID ∧
      (g.setPropensity p).getSequence = g.getSequence) ∧
    ((scoreGenes genes).isSome
      = genes.all fun x => (propensity x.getSequence none).isSome) ∧
    (∀ out : List Gene, scoreGenes genes = some out →
      List.Forall₂ (fun x o => o.getID = x.getID ∧ o.getSequence = x.getSequence ∧
        ∃ r, propensity x.getSequence none = some r ∧ o.getPropensity = r.1) genes out) ∧
    ((∀ x ∈ genes, (promoter x.getSequence).length < 2 ^ 31) →
      ∃ out, scoreGenes genes = some out) := by
  refine ⟨⟨rfl, rfl, rfl⟩, fun id seq => ⟨rfl, rfl, rfl⟩, ⟨rfl, rfl, rfl⟩,
    scoreGenes_isSome genes, scoreGenes_some genes, ?_⟩
  intro hshort
  have h : (scoreGenes genes).isSome = true := by
    rw [scoreGenes_isSome, List.all_eq_true]
    intro x hx
    rw [propensity_of_short _ (hshort x hx)]
    rfl
  exact Option.isSome_iff_exists.mp h

/-- Claim C16.  With the comparator of `main` every swap of the `for` loop
takes exactly one from the number of out-of-order pairs, a pass that clears
`sorted` leaves fewer of them, and so `bubbleSort` ends within that number of
passes plus one, which is at most the square of the length plus one; on the
empty vector and on a vector of one gene the first pass ends it. -/
theorem bubbleSort_ends (genes : List Gene) :
    (∀ (vec : List Gene) (i : Nat) (cur prev : Gene), 1 ≤ i →
        vec.get? i = some cur → vec.get? (i - 1) = some prev → mainCompare cur prev = true →
        inversions mainCompare ((vec.set i prev).set (i - 1) cur) + 1
          = inversions mainCompare vec) ∧
    ((doBody mainCompare genes).2 = false →
        inversions mainCompare (doBody mainCompare genes).1 < inversions mainCompare genes) ∧
    (∃ r, ∀ extra : Nat,
        bubbleSort mainCompare (inversions mainCompare genes + 1 + extra) genes = some r) ∧
    inversions mainCompare genes ≤ genes.length * genes.length ∧
    (∀ fuel : Nat, bubbleSort mainCompare (fuel + 1) [] = some []) ∧
    (∀ (g : Gene) (fuel : Nat), bubbleSort mainCompare (fuel + 1) [g] = some [g]) := by
  refine ⟨?_, ?_, ?_, inversions_le mainCompare genes, ?_, ?_⟩
  · intro vec i cur prev hi h1 h2 hc
    obtain ⟨e1, e2⟩ := set_set_eq_swap vec i cur prev hi h1 h2
    rw [e2]
    conv_rhs => rw [e1]
    exact inversions_swap mainCompare mainCompare_asymm prev cur _ hc _
  · intro h
    have hinv := doBody_inversions mainCompare mainCompare_asymm genes
    rw [h] at hinv
    simp only [Bool.false_eq_true, if_false] at hinv
    omega
  · obtain ⟨r, h1, _⟩ := bubbleSort_main genes
    exact ⟨r, h1⟩
  · intro fuel
    simp [bubbleSort, doBody_nil]
  · intro g fuel
    simp [bubbleSort, doBody_cons, bubblePass]

/-- Claim C17.  On a sequence whose promoter is shorter than `2 ^ 31`,
`propensity` returns, and the scan of every row of the table ends: the values
stored in the `int` index are exactly the start positions of the motif, in
increasing order, each below the promoter length (so the next search starts
within the promoter), followed by the `-1` that the not-found value becomes
and on which the comparison with `npos` ends the loop. -/
theorem scan_on_short_promoter (s : Str) (hlen : (promoter s).length < 2 ^ 31)
    (site : BindingSite) (hsite : site ∈ bindingSites) (sites : Option SiteMap) :
    (∃ r, propensity s sites = some r) ∧
    scanTrace (promoter s) site.motif ((promoter s).length + 1) (-1)
      = some ((occurrences (promoter s) site.motif).map Int.ofNat ++ [-1]) ∧
    siteScore (promoter s) site
      = (scanTrace (promoter s) site.motif ((promoter s).length + 1) (-1)).map
          (fun tr => ((tr.length - 1 : Nat) : ℚ) * site.score) ∧
    (occurrences (promoter s) site.motif).Pairwise (· < ·) ∧
    (∀ i ∈ occurrences (promoter s) site.motif,
      occursAt (promoter s) site.motif i = true ∧ toInt i = (i : Int) ∧
      (-1 : Int) < (i : Int) ∧ i + 1 ≤ (promoter s).length ∧ toSizeT (i : Int) ≠ npos) ∧
    (∀ i : Nat, i < (promoter s).length → occursAt (promoter s) site.motif i = true →
      i ∈ occurrences (promoter s) site.motif) ∧
    toInt npos = -1 ∧ toSizeT (-1) = npos := by
  have hm := bindingSites_motif_ne_nil site hsite
  refine ⟨⟨_, propensity_of_short s hlen sites⟩, scanTrace_eq_occurrences hm _ hlen, ?_,
    occurrences_increasing _ _, ?_, ?_, toInt_npos, toSizeT_neg_one⟩
  · rw [siteScore, scan_eq_scanTrace]
    simp
  · intro i hi
    obtain ⟨h1, h2⟩ := occurrences_mem _ _ i hi
    refine ⟨h2, toInt_of_lt i (by omega), by omega, by omega, ?_⟩
    rw [toSizeT_natCast i (by omega)]
    unfold npos
    omega
  · intro i h1 h2
    unfold occurrences
    rw [List.mem_filter, List.mem_range]
    exact ⟨h1, h2⟩

/-- Claim C17 at the sequence `ACGTaccgacGGGaccgacTTT` and the row of `accgac`:
the index takes the values 0, 6 and then -1. -/
theorem scan_on_short_promoter_witness :
    (∃ r, propensity "ACGTaccgacGGGaccgacTTT".toList none = some r) ∧
    scanTrace (promoter "ACGTaccgacGGGaccgacTTT".toList) "accgac".toList
        ((promoter "ACGTaccgacGGGaccgacTTT".toList).length + 1) (-1)
      = some ((occurrences (promoter "ACGTaccgacGGGaccgacTTT".toList) "accgac".toList).map
          Int.ofNat ++ [-1]) ∧
    occurrences (promoter "ACGTaccgacGGGaccgacTTT".toList) "accgac".toList = [0, 6] :=
  have h := scan_on_short_promoter "ACGTaccgacGGGaccgacTTT".toList (by decide)
    ⟨"accgac".toList, 0.8076⟩
    (.tail _ (.tail _ (.tail _ (.tail _ (.tail _ (.tail _ (.tail _ (.head _)))))))) none
  ⟨h.1, h.2.1, by decide⟩

/-- Claim C18.  On the promoter `gataaga` the motifs `gataaga`, `gataa` and
`gataag` occur once each, at the one offset 0, and no other motif of the table
occurs; their entries are `-3.3202`, `-2.1431` and `-0.7107`, the other
entries `0`, and the total is `-6.1740`.  In general the entry that the loop
over a table leaves for a row is the score of the scan of that row alone on
the promoter, whatever the other rows of the table are. -/
theorem contributions_independent :
    (∃ m : SiteMap,
      propensity "gataaga".toList (some []) = some (-6.1740, some m) ∧
      m.lookup "gataaga".toList = some (-3.3202) ∧
      m.lookup "gataa".toList = some (-2.1431) ∧
      m.lookup "gataag".toList = some (-0.7107) ∧
      (∀ site ∈ bindingSites,
        site.motif ∉ ["gataaga".toList, "gataa".toList, "gataag".toList] →
        m.lookup site.motif = some 0 ∧ occurrences "gataaga".toList site.motif = [])) ∧
    occurrences "gataaga".toList "gataaga".toList = [0] ∧
    occurrences "gataaga".toList "gataa".toList = [0] ∧
    occurrences "gataaga".toList "gataag".toList = [0] ∧
    (∀ (prom : Str) (tbl : List BindingSite) (p : ℚ) (m0 : SiteMap) (total : ℚ) (m : SiteMap),
      (tbl.map fun site => site.motif).Nodup →
      sitesLoop prom tbl p (some m0) = some (total, some m) →
      ∀ site ∈ tbl, m.lookup site.motif = siteScore prom site) ∧
    (∀ (s : Str) (total : ℚ) (m : SiteMap),
      propensity s (some []) = some (total, some m) →
      ∀ site ∈ bindingSites, m.lookup site.motif = siteScore (promoter s) site) := by
  refine ⟨⟨contributions (promoter "gataaga".toList) [], ?_, ?_, ?_, ?_, ?_⟩, by decide,
    by decide, by decide, fun prom => sitesLoop_lookup prom, ?_⟩
  · decide!
  · decide!
  · decide!
  · decide!
  · decide!
  · intro s total m h
    exact sitesLoop_lookup (promoter s) bindingSites 0 [] total m (by decide) h

/-- Claim C19.  From a record line made of a quoted identifier, a comma, a
quoted sequence, a comma and a number text that the stream reads as some
number `p`, `operator>>` makes the gene with that identifier, that sequence
and propensity `0`; and whatever the input, a gene it produces has the
identifier and the sequence that the two quoted extractions read, and
propensity `0`. -/
theorem extract_record_line (get : Str → Option (ℚ × Str)) (ID sequence num rest : Str)
    (p : ℚ) (target : Gene) (hnum : get num = some (p, rest)) :
    extractGene get (putQuoted ID ++ [','] ++ putQuoted sequence ++ [','] ++ num) target
      = some (Gene.mk ID sequence 0, rest) ∧
    (∀ (input : Str) (gene : Gene) (r : Gene × Str), extractGene get input gene = some r →
      r.1.getPropensity = 0 ∧
      ∃ r1 c1 r2 r3 c2 r4 q, getQuoted input = some (r.1.getID, r1) ∧
        getChar r1 = some (c1, r2) ∧ getQuoted r2 = some (r.1.getSequence, r3) ∧
        getChar r3 = some (c2, r4) ∧ get r4 = some (q, r.2)) := by
  constructor
  · unfold extractGene
    simp only [List.append_assoc, List.singleton_append, getQuoted_putQuoted, getChar_comma,
      List.cons_append, List.nil_append, hnum]
    rfl
  · intro input gene r h
    unfold extractGene at h
    cases h1 : getQuoted input with
    | none => rw [h1] at h; exact absurd h (by simp)
    | some a1 =>
      obtain ⟨id1, r1⟩ := a1
      rw [h1] at h
      simp only at h
      cases h2 : getChar r1 with
      | none => rw [h2] at h; exact absurd h (by simp)
      | some a2 =>
        obtain ⟨c1, r2⟩ := a2
        rw [h2] at h
        simp only at h
        cases h3 : getQuoted r2 with
        | none => rw [h3] at h; exact absurd h (by simp)
        | some a3 =>
          obtain ⟨seq1, r3⟩ := a3
          rw [h3] at h
          simp only at h
          cases h4 : getChar r3 with
          | none => rw [h4] at h; exact absurd h (by simp)
          | some a4 =>
            obtain ⟨c2, r4⟩ := a4
            rw [h4] at h
            simp only at h
            cases h5 : get r4 with
            | none => rw [h5] at h; exact absurd h (by simp)
            | some a5 =>
              obtain ⟨q, r5⟩ := a5
              rw [h5] at h
              simp only [Option.some.injEq] at h
              rw [← h]
              exact ⟨rfl, r1, c1, r2, r3, c2, r4, q, rfl, h2, h3, h4, h5⟩

/-- Claim C19 at the line of identifier `AT1G01010`, sequence `ACGTacgt` and
number text `2.5`, read by a stream that knows this one number text. -/
theorem extract_record_line_witness :
    extractGene (fun t => if t = "2.5".toList then some (2.5, []) else none)
        (putQuoted "AT1G01010".toList ++ [','] ++ putQuoted "ACGTacgt".toList ++ [',']
          ++ "2.5".toList) Gene.default
      = some (Gene.mk "AT1G01010".toList "ACGTacgt".toList 0, []) :=
  (extract_record_line (fun t => if t = "2.5".toList then some (2.5, []) else none)
    "AT1G01010".toList "ACGTacgt".toList "2.5".toList [] 2.5 Gene.default (by simp)).1

/-- Claim C20.  With the comparator of `main`, `bubbleSort` is stable: the
records of any one propensity stand in the result in their input order, two
records of equal propensity are never swapped and keep their relative order,
and the result is that of the stable sort by descending propensity. -/
theorem bubbleSort_stable (genes : List Gene) :
    ∃ r, (∀ extra : Nat,
        bubbleSort mainCompare (genes.length * genes.length + 1 + extra) genes = some r) ∧
      (∀ p : ℚ, r.filter (fun g => decide (g.propensity = p))
        = genes.filter (fun g => decide (g.propensity = p))) ∧
      (∀ a b : Gene, a.propensity = b.propensity → List.Sublist [a, b] genes →
        List.Sublist [a, b] r) ∧
      (∀ a b : Gene, a.propensity = b.propensity → mainCompare a b = false) ∧
      r = stableSortDescending genes := by
  obtain ⟨r, h1, _, h3, h4⟩ := bubbleSort_main genes
  refine ⟨r, fun extra => ?_, h4, ?_, ?_, ?_⟩
  · rw [fuel_square_split]
    exact h1 _
  · intro a b hab hsub
    have hf := hsub.filter (fun g => decide (g.propensity = a.propensity))
    rw [← h4 a.propensity] at hf
    have hab2 : [a, b].filter (fun g => decide (g.propensity = a.propensity)) = [a, b] := by
      simp [hab]
    rw [hab2] at hf
    exact hf.trans (List.filter_sublist r)
  · intro a b hab
    simp [mainCompare, Gene.gt, hab]
  · refine eq_of_descending_of_filter r _ h3 (stableSortDescending_sorted genes) ?_
    intro p
    rw [h4 p, stableSortDescending_filter genes p]

/-- Claim C21.  Two sequences with the same subsequence of lowercase letters
get the same result from `propensity`, total and map alike; so a character
that is not a lowercase letter can be put in or taken out anywhere without
changing the result.  The sequence `accGGGgac` does not hold the motif
`accgac` as a substring, yet its promoter is `accgac` and `propensity` gives it
the total `0.8076`, all of it the entry of `accgac`. -/
theorem propensity_of_lowercase_subsequence (s t : Str)
    (h : s.filter Char.isLower = t.filter Char.isLower) (sites : Option SiteMap) :
    propensity s sites = propensity t sites ∧
    (∀ site ∈ bindingSites, siteScore (promoter s) site = siteScore (promoter t) site) ∧
    (∀ (pre post : Str) (c : Char), c.isLower = false →
      propensity (pre ++ c :: post) sites = propensity (pre ++ post) sites) ∧
    (occurrences "accGGGgac".toList "accgac".toList = [] ∧
      promoter "accGGGgac".toList = "accgac".toList ∧
      ∃ m : SiteMap,
        propensity "accGGGgac".toList (some []) = some (0.8076, some m) ∧
        m.lookup "accgac".toList = some 0.8076 ∧
        propensity "accgac".toList (some []) = some (0.8076, some m)) := by
  have hfun : islower = Char.isLower := funext islower_eq_isLower
  have hp : promoter s = promoter t := by
    rw [promoter, promoter, hfun]
    exact h
  refine ⟨?_, ?_, ?_, by decide, by decide, contributions "accgac".toList [], ?_, ?_, ?_⟩
  · rw [propensity, propensity, hp]
  · intro site _
    rw [hp]
  · intro pre post c hc
    have hc2 : islower c = false := by rw [islower_eq_isLower]; exact hc
    have hq : promoter (pre ++ c :: post) = promoter (pre ++ post) := by
      simp [promoter, List.filter_append, List.filter_cons, hc2]
    rw [propensity, propensity, hq]
  · decide!
  · decide!
  · decide!

/-- Claim C21 at the sequences `accGGGgac` and `accgac`. -/
theorem propensity_of_lowercase_subsequence_witness :
    propensity "accGGGgac".toList none = propensity "accgac".toList none :=
  (propensity_of_lowercase_subsequence "accGGGgac".toList "accgac".toList (by decide) none).1

end DNA
